import Mathlib

/-!
# LZSS codec (`LZSS.c`) and PE checksum (`PECHECKSUM.c`) of YarnSalesman/MISC:
shallow embedding and verified properties

Modelling conventions.

* A `u8 *` into the input buffer is an `Int` offset relative to the buffer origin `uc`
  (so `start = uc - 1` is the offset `-1`); the memory behind `uc` is a function
  `Int → Nat` from offsets to bytes.
* The output of the encoder is written strictly sequentially through `cptr`; it is modelled
  as the list of bytes written so far (`cptr - c` is its length).  The same holds for the
  output of the decoder (`wnd - uc` is the length of the list).
* The compressed stream read by the decoder is a `List Nat`; a read outside of it has no
  defined result in C and yields `none`.
* `u32` counters of the encoder (`i`, `nm`, `len`, `pos`, `spos`, `mlen`) never exceed
  `ucsize`, which is itself a `u32`; they are natural numbers.  Where the C code truncates
  (`u16 cinfo`, the products and shifts of `MSBi32` and `write_code`, the `u32` counter
  `csize` of the decoder, the stores of 1, 2 and 4 bytes) the reduction modulo `2 ^ w` is
  explicit.  Multi-byte stores and loads are little-endian, as on the hosts the program is
  written for.
-/

namespace LZSS

/-- Source: `#define MINMATCH 0x3`. -/
def MINMATCH : Nat := 0x3

/-- Source: `#define WINDOWSIZE 0x1000`. -/
def WINDOWSIZE : Nat := 0x1000

/-! ## Match finder (`find_longest_match`, lines 97-121) -/

/-- Inner loop of line 112:
`for (...; ltemp != end && *stemp==*ltemp; stemp++,ltemp++,mlen++);`.
The first argument bounds the number of iterations; the caller passes `end - ltemp`,
which the loop cannot exceed when it starts with `ltemp ≤ end`, because `ltemp` stops at
`end`. -/
def extend_match (uc : Int → Nat) (endp : Int) : Nat → Int → Int → Nat → Nat
  | 0, _, _, mlen => mlen
  | fuel + 1, stemp, ltemp, mlen =>
    if ltemp ≠ endp ∧ uc stemp = uc ltemp then
      extend_match uc endp fuel (stemp + 1) (ltemp + 1) (mlen + 1)
    else mlen

/-- Outer loop of lines 106-120: `for (spos=0,mlen=0; sptr > start+1; sptr--) {...}` with the
loop state `sptr, spos, mlen, *pos, *len`.  The first argument bounds the number of
iterations; the caller passes `sptr - (start + 1)`, the exact number of iterations. -/
def scan_window (uc : Int → Nat) (start endp wnd : Int) :
    Nat → Int → Nat → Nat → Nat → Nat → Nat × Nat
  | 0, _, _, _, pos, len => (pos, len)
  | fuel + 1, sptr, spos, mlen, pos, len =>
    if sptr > start + 1 then
      if uc sptr = uc wnd then
        let m := extend_match uc endp (endp - (wnd + 1)).toNat (sptr + 1) (wnd + 1) (mlen + 1)
        if m > len then scan_window uc start endp wnd fuel (sptr - 1) (spos + 1) 0 (spos + 1) m
        else scan_window uc start endp wnd fuel (sptr - 1) (spos + 1) 0 pos len
      else scan_window uc start endp wnd fuel (sptr - 1) (spos + 1) mlen pos len
    else (pos, len)

/-- Source: `find_longest_match(start, end, wnd, &pos, &len)`; returns `(*pos, *len)`.
The embedding is that of the calls with the cursor inside the buffer (`wnd < end`), the only
ones `compress` makes: there the inner loop starts at `ltemp = wnd + 1 ≤ end`.  In a call with
`wnd ≥ end` the inner loop of the source starts past `end`, is not stopped by `ltemp != end`
and reads outside the buffer; such a call is outside the embedding (it gets no inner
iteration here), and the properties of the result are stated under `wnd < end`. -/
def find_longest_match (uc : Int → Nat) (start endp wnd : Int) : Nat × Nat :=
  scan_window uc start endp wnd (wnd - 1 - (start + 1)).toNat (wnd - 1) 0 0 0 1

/-! ## Bit width (`MSBi32`, lines 123-136) -/

/-- Source: the table `POS32`. -/
def POS32 : List Nat :=
  [ 0,  1, 28,  2, 29, 14, 24, 3,
   30, 22, 20, 15, 25, 17,  4, 8,
   31, 27, 13, 23, 21, 19, 16, 7,
   26, 12, 18,  6, 11,  5, 10, 9]

/-- Source: the macro `MSBi32(n)`, returning the final value of `n`; the product is a `u32`. -/
def MSBi32 (n : Nat) : Nat :=
  let n := n ||| (n >>> 1)
  let n := n ||| (n >>> 2)
  let n := n ||| (n >>> 4)
  let n := n ||| (n >>> 8)
  let n := n ||| (n >>> 16)
  let n := (n >>> 1) + 1
  POS32.getD (((n * 0x077CB531) % 2 ^ 32) >>> 27) 0

/-! ## Code encoder (`write_code`, lines 139-188) -/

/-- Store of a `u8`. -/
def le8 (v : Nat) : List Nat := [v % 256]

/-- Store of a `u16`, little-endian. -/
def le16 (v : Nat) : List Nat := [v % 256, v / 256 % 256]

/-- Store of a `u32`, little-endian. -/
def le32 (v : Nat) : List Nat := [v % 256, v / 256 % 256, v / 65536 % 256, v / 16777216 % 256]

/-- Loop of line 155: `for (cptr++; *nm; (*nm)--,*cptr=*wnd,cptr++,wnd++);`, by recursion on
`*nm`. -/
def copy_literals (uc : Int → Nat) : Nat → Int → List Nat → List Nat
  | 0, _, c => c
  | nm + 1, wnd, c => copy_literals uc nm (wnd + 1) (c ++ [uc wnd])

/-- Lines 141-156 of `write_code`, the `if (*nm) {...}` block: returns the output written so
far and the new value of `*nm`. -/
def write_literal (uc : Int → Nat) (wnd : Int) (c : List Nat) (nm : Nat) : List Nat × Nat :=
  if nm ≠ 0 then
    let wnd := wnd - nm
    let b := 0
    let hdr : List Nat :=
      if nm < 32 then le8 (b ||| nm)
      else
        let nm1 := nm - 31
        let b := b ||| 31
        if nm1 ≤ 0xFF then le8 (b ||| 32) ++ le8 nm1
        else if nm1 ≤ 0xFFFF then le8 (b ||| 64) ++ le16 nm1
        else le8 (b ||| 96) ++ le32 nm1
    (copy_literals uc nm wnd (c ++ hdr), 0)
  else (c, nm)

/-- Lines 158-185 of `write_code`, the `if (len >= MINMATCH) {...}` block. -/
def write_match (pos len : Nat) (c : List Nat) : List Nat :=
  if len ≥ MINMATCH then
    let cinfo := 0x8000
    let poslen := MSBi32 pos
    let lenlen := MSBi32 len
    if poslen + lenlen < 11 - 1 then
      let cinfo := (cinfo ||| (((len <<< (poslen + 1)) % 2 ^ 32) ||| pos)) % 2 ^ 16
      let cinfo := (cinfo ||| (poslen <<< 11)) % 2 ^ 16
      c ++ le16 ((cinfo <<< 8) ||| (cinfo >>> 8))
    else
      let poslen := (if len ≤ 0xFFFF then (if len ≤ 0xFF then 10 else 12) else 14)
                    + (if poslen = 12 - 1 then 1 else 0)
      let cinfo := (cinfo ||| (poslen <<< 11)) % 2 ^ 16
      let cinfo := (cinfo ||| pos) % 2 ^ 16
      let c := c ++ le16 ((cinfo <<< 8) ||| (cinfo >>> 8))
      if poslen < 12 then c ++ le8 len
      else if poslen < 14 then c ++ le16 len
      else c ++ le32 len
  else c

/-- Source: `write_code(pos, len, wnd, cptr, &nm)`; returns the output written so far (the
returned `cptr`) and the new value of `*nm`. -/
def write_code (uc : Int → Nat) (pos len : Nat) (wnd : Int) (c : List Nat) (nm : Nat) :
    List Nat × Nat :=
  let r := write_literal uc wnd c nm
  (write_match pos len r.1, r.2)

/-! ## Compress driver (`compress`, lines 190-214) -/

/-- Local variables of `compress` at the head of the `for` loop; `cptr` is the list of the
bytes written to `c` so far. -/
structure CState where
  i : Nat
  nm : Nat
  len : Nat
  pos : Nat
  wnd : Int
  start : Int
  cptr : List Nat
deriving DecidableEq

/-- One iteration of the loop of `compress` (lines 201-208) followed by the increment
`i+=len, wnd+=len`; `endp` is the offset of `end = uc+ucsize`. -/
def compress_step (uc : Int → Nat) (endp : Int) (s : CState) : CState :=
  let start := if s.i > WINDOWSIZE then s.start + s.len else s.start
  let r := find_longest_match uc start endp s.wnd
  if r.2 ≥ MINMATCH then
    let w := write_code uc r.1 r.2 s.wnd s.cptr s.nm
    ⟨s.i + r.2, w.2, r.2, r.1, s.wnd + r.2, start, w.1⟩
  else
    ⟨s.i + r.2, s.nm + r.2, r.2, r.1, s.wnd + r.2, start, s.cptr⟩

/-- The `for` loop of `compress`: iterates while `i<ucsize`.  The first argument bounds the
number of iterations. -/
def compress_loop (uc : Int → Nat) (ucsize : Nat) : Nat → CState → CState
  | 0, s => s
  | fuel + 1, s =>
    if s.i < ucsize then compress_loop uc ucsize fuel (compress_step uc ucsize s) else s

/-- State of `compress` when the loop is entered (`len` and `pos` are not initialised in the
source and not read before they are assigned). -/
def compress_init : CState := ⟨0, 0, 0, 0, 0, -1, []⟩

/-- Source: `compress(uc, c, ucsize)`; returns the bytes written to `c` (the returned `int`
is their number).  The loop is given `ucsize` iterations, which it never exceeds because
every iteration advances `i` by at least one. -/
def compress (uc : Int → Nat) (ucsize : Nat) : List Nat :=
  let s := compress_loop uc ucsize ucsize compress_init
  if s.nm ≠ 0 then (write_code uc s.pos s.len s.wnd s.cptr s.nm).1 else s.cptr

/-- Source: line 274 of `lzss_compress`, the number of bytes allocated for `odata`:
`calloc((fsize/8) + fsize + 1, 1)`, a `u32` expression. -/
def odata_size (fsize : Nat) : Nat := ((fsize / 8) + fsize + 1) % 2 ^ 32

/-- Source: `lzss_compress` with `write_file(.., type = 1)`: the contents of the compressed
file, the two `u32` size fields followed by `csize` bytes of `odata`. -/
def lzss_compress (uc : Int → Nat) (fsize : Nat) : List Nat :=
  let odata := compress uc fsize
  let csize := odata.length % 2 ^ 32
  le32 fsize ++ le32 csize ++ odata.take csize

/-! ## Decoder (`decompress`, lines 216-266) -/

/-- Load of a `u8` at offset `p`. -/
def rd8 (cbuf : List Nat) (p : Nat) : Option Nat := cbuf[p]?

/-- Load of a `u16` at offset `p`, little-endian. -/
def rd16 (cbuf : List Nat) (p : Nat) : Option Nat :=
  match cbuf[p]?, cbuf[p + 1]? with
  | some b0, some b1 => some (b0 + 256 * b1)
  | _, _ => none

/-- Load of a `u32` at offset `p`, little-endian. -/
def rd32 (cbuf : List Nat) (p : Nat) : Option Nat :=
  match cbuf[p]?, cbuf[p + 1]?, cbuf[p + 2]?, cbuf[p + 3]? with
  | some b0, some b1, some b2, some b3 => some (b0 + 256 * b1 + 65536 * b2 + 16777216 * b3)
  | _, _, _, _ => none

/-- Loop of line 249: `for (...; len--; *wnd=*wptr,wnd++,wptr++);`, reading the output
written so far at offset `wptr`.  A read of a byte of the output that is not written yet has
no result determined by the codec and yields `none`. -/
def copy_match : Nat → Nat → List Nat → Option (List Nat)
  | 0, _, w => some w
  | len + 1, wptr, w =>
    match w[wptr]? with
    | some b => copy_match len (wptr + 1) (w ++ [b])
    | none => none

/-- Loop of line 258: `for (...; lcount--; *wnd=*cptr,wnd++,cptr++);`; returns the new `cptr`
and the output. -/
def copy_raw (cbuf : List Nat) : Nat → Nat → List Nat → Option (Nat × List Nat)
  | 0, cptr, w => some (cptr, w)
  | lcount + 1, cptr, w =>
    match cbuf[cptr]? with
    | some b => copy_raw cbuf lcount (cptr + 1) (w ++ [b])
    | none => none

/-- Match branch of `decompress` (lines 231-249): returns the new `cptr` and the output.
`wptr = wnd - pos` is an offset into the output only when `pos` does not exceed the number of
bytes written. -/
def decode_match (cbuf : List Nat) (cptr : Nat) (w : List Nat) : Option (Nat × List Nat) :=
  match rd16 cbuf cptr with
  | none => none
  | some v =>
    let info := ((v >>> 8) ||| (v <<< 8)) % 2 ^ 16
    let poslen := (info >>> 11) &&& 0xF
    if poslen < 11 - 1 then
      let len := (info &&& 0x7FF) >>> (poslen + 1)
      let pos := info &&& (0xFFFF >>> (16 - (poslen + 1)))
      if pos ≤ w.length then (copy_match len (w.length - pos) w).map (fun w1 => (cptr + 2, w1))
      else none
    else
      let poslen := poslen &&& 0xE
      let pos := info &&& 0xFFF
      let r : Option (Nat × Nat) :=
        if poslen = 14 then (rd32 cbuf (cptr + 2)).map (fun len => (len, cptr + 4))
        else if poslen = 12 then (rd16 cbuf (cptr + 2)).map (fun len => (len, cptr + 2))
        else (rd8 cbuf (cptr + 2)).map (fun len => (len, cptr + 1))
      match r with
      | none => none
      | some (len, cptr1) =>
        if pos ≤ w.length then
          (copy_match len (w.length - pos) w).map (fun w1 => (cptr1 + 2, w1))
        else none

/-- Field extraction of the match branch of `decompress` (lines 231-247 and the `cptr+=2` of
line 249): the distance `pos`, the length `len` and the value of `cptr` after the code. -/
def parse_match (cbuf : List Nat) (cptr : Nat) : Option (Nat × Nat × Nat) :=
  match rd16 cbuf cptr with
  | none => none
  | some v =>
    let info := ((v >>> 8) ||| (v <<< 8)) % 2 ^ 16
    let poslen := (info >>> 11) &&& 0xF
    if poslen < 11 - 1 then
      let len := (info &&& 0x7FF) >>> (poslen + 1)
      let pos := info &&& (0xFFFF >>> (16 - (poslen + 1)))
      some (pos, len, cptr + 2)
    else
      let poslen := poslen &&& 0xE
      let pos := info &&& 0xFFF
      if poslen = 14 then (rd32 cbuf (cptr + 2)).map (fun len => (pos, len, cptr + 4 + 2))
      else if poslen = 12 then (rd16 cbuf (cptr + 2)).map (fun len => (pos, len, cptr + 2 + 2))
      else (rd8 cbuf (cptr + 2)).map (fun len => (pos, len, cptr + 1 + 2))

/-- Literal branch of `decompress` (lines 253-258): returns the new `cptr` and the output. -/
def decode_literal (cbuf : List Nat) (cptr : Nat) (w : List Nat) : Option (Nat × List Nat) :=
  match rd8 cbuf cptr with
  | none => none
  | some b =>
    let r : Option (Nat × Nat) :=
      if b &&& 0x60 = 0x60 then (rd32 cbuf (cptr + 1)).map (fun v => ((31 + v) % 2 ^ 32, cptr + 4))
      else if b &&& 0x60 = 0x40 then
        (rd16 cbuf (cptr + 1)).map (fun v => ((31 + v) % 2 ^ 32, cptr + 2))
      else if b &&& 0x60 = 0x20 then
        (rd8 cbuf (cptr + 1)).map (fun v => ((31 + v) % 2 ^ 32, cptr + 1))
      else some (b, cptr)
    match r with
    | none => none
    | some (lcount, cptr1) => copy_raw cbuf lcount (cptr1 + 1) w

/-- Variables of `decompress` at the head of the `while` loop: `cptr` (an offset into the
compressed buffer; `c` equals `cptr` there), the remaining-byte counter `csize` and the bytes
written to `uc` so far. -/
structure DState where
  cptr : Nat
  csize : Nat
  wnd : List Nat
deriving DecidableEq

/-- One iteration of the `while` loop of `decompress` (lines 229-262), ending with the `u32`
update `csize -= (cptr-c)`. -/
def decompress_step (cbuf : List Nat) (s : DState) : Option DState :=
  match rd8 cbuf s.cptr with
  | none => none
  | some b =>
    let r := if b &&& 0x80 ≠ 0 then decode_match cbuf s.cptr s.wnd else decode_literal cbuf s.cptr s.wnd
    match r with
    | none => none
    | some (cptr1, w1) =>
      some ⟨cptr1, (s.csize + 2 ^ 32 - (cptr1 - s.cptr) % 2 ^ 32) % 2 ^ 32, w1⟩

/-- The loop `while (csize) {...}`.  The first argument bounds the number of iterations. -/
def decompress_loop (cbuf : List Nat) : Nat → DState → Option DState
  | 0, s => if s.csize ≠ 0 then none else some s
  | fuel + 1, s =>
    if s.csize ≠ 0 then
      match decompress_step cbuf s with
      | none => none
      | some t => decompress_loop cbuf fuel t
    else some s

/-- States at the head of the `while` loop of `decompress`, in the order they are reached. -/
def decompress_trace (cbuf : List Nat) : Nat → DState → List DState
  | 0, s => [s]
  | fuel + 1, s =>
    if s.csize ≠ 0 then
      match decompress_step cbuf s with
      | none => [s]
      | some t => s :: decompress_trace cbuf fuel t
    else [s]

/-- State of `decompress` when the loop is entered: `cptr = c + 8`, `csize = *(u32 *)(c+4)`,
nothing written. -/
def decompress_init (cbuf : List Nat) : Option DState :=
  (rd32 cbuf 4).map (fun csize => ⟨8, csize, []⟩)

/-- Source: `decompress(c, uc)`; returns the bytes written to `uc`.  Every iteration reads
`*cptr` and advances `cptr`, so the loop is given one iteration per byte of the buffer. -/
def decompress (cbuf : List Nat) : Option (List Nat) :=
  match decompress_init cbuf with
  | none => none
  | some s => (decompress_loop cbuf cbuf.length s).map (fun t => t.wnd)

/-- Memory holding the byte sequence `B` at the offsets `0 .. B.length - 1`. -/
def mem (B : List Nat) : Int → Nat := fun p => B.getD p.toNat 0

/-- The `n` bytes of the memory `uc` at the offsets `0 .. n - 1`. -/
def bytes (uc : Int → Nat) (n : Nat) : List Nat := (List.range n).map (fun k : Nat => uc (k : Int))

/-! ## PE checksum (`my_ChkSum`, `PECHECKSUM.c` lines 6-24)

The block at `BaseAddress` is a function from byte offsets to bytes; `acc` is a `uint64_t`,
`length` and the result are `unsigned int` (32 bits). -/

/-- Load of the little-endian `uint32_t` at byte offset `p`. -/
def word32 (base : Nat → Nat) (p : Nat) : Nat :=
  base p + 256 * base (p + 1) + 65536 * base (p + 2) + 16777216 * base (p + 3)

/-- Loop of line 12: `for (;length&3;length--) acc+=*p8++;` with the state `length, p8, acc`.
The first argument bounds the number of iterations; 3 are enough. -/
def chk_bytes (base : Nat → Nat) : Nat → Nat → Nat → Nat → Nat × Nat × Nat
  | 0, length, p8, acc => (length, p8, acc)
  | fuel + 1, length, p8, acc =>
    if length &&& 3 ≠ 0 then
      chk_bytes base fuel ((length + 2 ^ 32 - 1) % 2 ^ 32) (p8 + 1) ((acc + base p8) % 2 ^ 64)
    else (length, p8, acc)

/-- Loop of line 14: `for (;length;length-=4) acc+=*p32++;`, returning `acc`.  The first
argument bounds the number of iterations; `length / 4` are enough when `length` is a multiple
of 4, as it is after the loop of line 12. -/
def chk_words (base : Nat → Nat) : Nat → Nat → Nat → Nat → Nat
  | 0, _, _, acc => acc
  | fuel + 1, length, p32, acc =>
    if length ≠ 0 then
      chk_words base fuel ((length + 2 ^ 32 - 4) % 2 ^ 32) (p32 + 4)
        ((acc + word32 base p32) % 2 ^ 64)
    else acc

/-- Source: `my_ChkSum(checksum, BaseAddress, length)`. -/
def my_ChkSum (checksum : Nat) (base : Nat → Nat) (length : Nat) : Nat :=
  let acc := checksum % 2 ^ 64
  let r := chk_bytes base 3 length 0 acc
  let acc := chk_words base (r.1 / 4) r.1 r.2.1 r.2.2
  let acc := ((acc >>> 32) + (acc &&& 0xFFFFFFFF)) % 2 ^ 64
  let acc := (acc + (acc >>> 32)) % 2 ^ 64
  let acc := ((acc >>> 16) + (acc &&& 0xFFFF)) % 2 ^ 64
  let acc := (acc + (acc >>> 16)) % 2 ^ 64
  let acc := acc &&& 0xFFFF
  acc % 2 ^ 32

/-! ## Auxiliary definitions used to state and prove the properties -/

/-- The five or-shift steps of `MSBi32` (lines 130-134). -/
def smear (n : Nat) : Nat :=
  let n := n ||| (n >>> 1)
  let n := n ||| (n >>> 2)
  let n := n ||| (n >>> 4)
  let n := n ||| (n >>> 8)
  n ||| (n >>> 16)

/-- The `m` bytes at distance `d` before the cursor `wnd` equal the `m` bytes at the cursor,
and the run at the cursor stays inside the buffer. -/
def IsRun (uc : Int → Nat) (endp wnd : Int) (d m : Nat) : Prop :=
  wnd + m ≤ endp ∧ ∀ j : Nat, j < m → uc (wnd - d + j) = uc (wnd + j)

/-- The pair `(pos, len)` is what the scan over the distances `1 .. D` records: `len` bounds
every common run, and it is either the initial `(0, 1)` or the nearest run of that length. -/
def Best (uc : Int → Nat) (endp wnd : Int) (D pos len : Nat) : Prop :=
  1 ≤ len ∧ (∀ d m : Nat, 1 ≤ d → d ≤ D → IsRun uc endp wnd d m → m ≤ len) ∧
  ((pos = 0 ∧ len = 1) ∨
    (1 ≤ pos ∧ pos ≤ D ∧ 2 ≤ len ∧ IsRun uc endp wnd pos len ∧
      ∀ d : Nat, 1 ≤ d → d < pos → ¬ IsRun uc endp wnd d len))

/-- Number of candidate positions scanned by `find_longest_match`. -/
def ncand (start wnd : Int) : Nat := (wnd - 1 - (start + 1)).toNat

/-- Guarded loop body of `compress`: one iteration when `i<ucsize`, nothing otherwise. -/
def compress_next (uc : Int → Nat) (ucsize : Nat) (s : CState) : CState :=
  if s.i < ucsize then compress_step uc ucsize s else s

/-- State of `compress` at the head of the loop after `k` iterations (the final state when the
loop has ended before). -/
def compress_iter (uc : Int → Nat) (ucsize : Nat) : Nat → CState
  | 0 => compress_init
  | k + 1 => compress_next uc ucsize (compress_iter uc ucsize k)

/-- Value of `start` passed to `find_longest_match` in the iteration that begins in state `s`
(line 201). -/
def eff_start (s : CState) : Int := if s.i > WINDOWSIZE then s.start + s.len else s.start

/-- Streams of codes: `Enc s d` holds when `s` is a sequence of codes as `write_code` writes
them and `d` is the byte sequence they stand for. -/
inductive Enc : List Nat → List Nat → Prop
  | nil : Enc [] []
  | lit {s d : List Nat} (uc : Int → Nat) (wnd : Int) (nm : Nat) :
      Enc s d → 1 ≤ nm → nm < 2 ^ 32 →
      Enc (s ++ (write_literal uc wnd [] nm).1)
        (d ++ (List.range nm).map (fun k : Nat => uc (wnd - nm + k)))
  | mtch {s d d1 : List Nat} (pos len : Nat) :
      Enc s d → 1 ≤ pos → pos ≤ d.length → pos < 4096 → MINMATCH ≤ len → len < 2 ^ 32 →
      copy_match len (d.length - pos) d = some d1 →
      Enc (s ++ write_match pos len []) d1

/-- Invariant of the loop of `compress`. -/
structure CInv (uc : Int → Nat) (n : Nat) (s : CState) : Prop where
  wnd_eq : s.wnd = s.i
  i_le : s.i ≤ n
  nm_le : s.nm ≤ s.i
  win_lo : -1 ≤ eff_start s
  win_hi : (s.i : Int) - eff_start s ≤ WINDOWSIZE + 1
  enc : Enc s.cptr (bytes uc (s.i - s.nm))
  pend : s.nm ≠ 0 → s.len < MINMATCH

/-- Header and overflow bytes of the Literal Code of a run of `nm` bytes. -/
def lit_header (nm : Nat) : List Nat :=
  if nm < 32 then [nm]
  else if nm - 31 ≤ 0xFF then [0x3F, nm - 31]
  else if nm - 31 ≤ 0xFFFF then [0x5F, (nm - 31) % 256, (nm - 31) / 256]
  else [0x7F, (nm - 31) % 256, (nm - 31) / 256 % 256, (nm - 31) / 65536 % 256,
        (nm - 31) / 16777216]

/-- Input on which the output of `compress` exceeds the buffer of `lzss_compress`: 172 groups
`j, j, 254`, then 128 groups `255, j + 1, j + 1, 254`. -/
def cex_byte (i : Nat) : Nat :=
  if i < 516 then (if i % 3 = 2 then 254 else i / 3)
  else if (i - 516) % 4 = 0 then 255
  else if (i - 516) % 4 = 3 then 254
  else (i - 516) / 4 + 1

/-- Memory holding the bytes `cex_byte`. -/
def cex_mem (p : Int) : Nat := cex_byte p.toNat

/-- State of `compress` on the input `cex_mem` after the first part and `j` groups of the
second part. -/
def CexInv (j : Nat) (s : CState) : Prop :=
  s.i = 516 + 4 * j ∧ s.wnd = ((516 + 4 * j : Nat) : Int) ∧ s.start = -1 ∧
  s.nm = (if j = 0 then 516 else 0) ∧ s.cptr.length = (if j = 0 then 0 else 518 + 5 * j)

/-- Calls of `write_code` made by the first `k` iterations of the loop of `compress`, in
order: the arguments `(pos, len, wnd, *nm)` of each call (line 206). -/
def write_calls (uc : Int → Nat) (n : Nat) : Nat → List (Nat × Nat × Int × Nat)
  | 0 => []
  | k + 1 =>
    if (compress_iter uc n k).i < n ∧
        MINMATCH ≤ (find_longest_match uc (eff_start (compress_iter uc n k)) n
          (compress_iter uc n k).wnd).2 then
      write_calls uc n k ++
        [((find_longest_match uc (eff_start (compress_iter uc n k)) n
            (compress_iter uc n k).wnd).1,
          (find_longest_match uc (eff_start (compress_iter uc n k)) n
            (compress_iter uc n k).wnd).2,
          (compress_iter uc n k).wnd, (compress_iter uc n k).nm)]
    else write_calls uc n k

/-- All calls of `write_code` made by `compress`: those of the loop, then the call of line 211
when literals are pending. -/
def all_write_calls (uc : Int → Nat) (n : Nat) : List (Nat × Nat × Int × Nat) :=
  write_calls uc n n ++
    (if (compress_iter uc n n).nm ≠ 0 then
      [((compress_iter uc n n).pos, (compress_iter uc n n).len, (compress_iter uc n n).wnd,
        (compress_iter uc n n).nm)]
    else [])

/-- Input bytes that the codes written by one call of `write_code` stand for: the literal
count, plus the match length when a Match Code is written. -/
def call_bytes (e : Nat × Nat × Int × Nat) : Nat :=
  e.2.2.2 + (if MINMATCH ≤ e.2.1 then e.2.1 else 0)

/-- Output of a sequence of calls of `write_code`, starting from the output `c`. -/
def run_calls (uc : Int → Nat) (calls : List (Nat × Nat × Int × Nat)) (c : List Nat) : List Nat :=
  calls.foldl (fun c e => (write_code uc e.1 e.2.1 e.2.2.1 c e.2.2.2).1) c

/-- Input of 4300 bytes, 4200 times `A` then `B`, on which a match jumps from cursor index 2
across the window boundary. -/
def jump_mem (p : Int) : Nat := if p < 4200 then 65 else 66

/-- The exact sum that `my_ChkSum` accumulates: the initial checksum, the first `length % 4`
bytes of the block and the `length / 4` little-endian 32-bit words that follow. -/
def chk_exact_sum (checksum : Nat) (base : Nat → Nat) (length : Nat) : Nat :=
  checksum + ((List.range (length % 4)).map base).sum +
    ((List.range (length / 4)).map (fun j => word32 base (length % 4 + 4 * j))).sum

/-- Block of 12 bytes `FF FF FF FF FF FF FF FF 01 00 00 00`. -/
def chk_block (p : Nat) : Nat := if p < 8 then 0xFF else if p = 8 then 1 else 0

/-! ## Bit width -/

theorem testBit_top (n k : Nat) (h1 : 2 ^ k ≤ n) (h2 : n < 2 ^ (k + 1)) : n.testBit k = true := by
  rw [Nat.testBit_to_div_mod]
  have : n / 2 ^ k = 1 := by
    apply Nat.div_eq_of_lt_le <;> simp <;> [exact h1; (rw [pow_succ] at h2; omega)]
  simp [this]

theorem smear_eq (n k : Nat) (hk : k < 32) (h1 : 2 ^ k ≤ n) (h2 : n < 2 ^ (k + 1)) :
    smear n = 2 ^ (k + 1) - 1 := by
  apply Nat.eq_of_testBit_eq
  intro i
  have htop := testBit_top n k h1 h2
  have hhi : ∀ j, k < j → n.testBit j = false := fun j hj =>
    Nat.testBit_lt_two_pow (lt_of_lt_of_le h2 (Nat.pow_le_pow_right (by decide) hj))
  simp only [smear, Nat.testBit_or, Nat.testBit_shiftRight, Nat.testBit_two_pow_sub_one]
  by_cases hi : i < k + 1
  · obtain ⟨j, rfl⟩ : ∃ j, k = i + j := ⟨k - i, by omega⟩
    have hj : j < 32 := by omega
    simp only [hi, decide_True]
    have hf : ∀ m, m = i + j → n.testBit m = true := fun m hm => hm ▸ htop
    interval_cases j <;> simp (disch := omega) only [hf, Bool.or_true, Bool.true_or]
  · simp only [hi, decide_False]
    have hf : ∀ m, k < m → n.testBit m = false := hhi
    simp (disch := omega) only [hf, Bool.or_self]

theorem MSBi32_eq_log2 (n : Nat) (h0 : 1 ≤ n) (h32 : n < 2 ^ 32) : MSBi32 n = Nat.log2 n := by
  have hn : n ≠ 0 := by omega
  have hk : Nat.log2 n < 32 := (Nat.log2_lt hn).2 h32
  have h1 : 2 ^ Nat.log2 n ≤ n := Nat.log2_self_le hn
  have h2 : n < 2 ^ (Nat.log2 n + 1) := Nat.lt_log2_self
  have hs := smear_eq n _ hk h1 h2
  have : MSBi32 n = POS32.getD (((((smear n >>> 1) + 1) * 0x077CB531) % 2 ^ 32) >>> 27) 0 := rfl
  rw [this, hs]
  generalize Nat.log2 n = k at hk
  interval_cases k <;> decide

/-! ## Match finder -/

theorem extend_match_spec (uc : Int → Nat) (endp : Int) :
    ∀ (fuel : Nat) (stemp ltemp : Int) (mlen : Nat), ltemp + fuel = endp →
      ∃ e : Nat, extend_match uc endp fuel stemp ltemp mlen = mlen + e ∧ e ≤ fuel ∧
        (∀ j : Nat, j < e → uc (stemp + j) = uc (ltemp + j)) ∧
        (e = fuel ∨ uc (stemp + e) ≠ uc (ltemp + e)) := by
  intro fuel
  induction fuel with
  | zero => intro stemp ltemp mlen _; exact ⟨0, by simp [extend_match]⟩
  | succ f ih =>
    intro stemp ltemp mlen h
    by_cases hc : ltemp ≠ endp ∧ uc stemp = uc ltemp
    · obtain ⟨e, he, hle, hall, hstop⟩ := ih (stemp + 1) (ltemp + 1) (mlen + 1) (by push_cast at h; omega)
      refine ⟨e + 1, ?_, by omega, ?_, ?_⟩
      · rw [extend_match, if_pos hc, he]; omega
      · intro j hj
        rcases Nat.eq_zero_or_pos j with rfl | hpos
        · simpa using hc.2
        · have := hall (j - 1) (by omega)
          have e1 : stemp + 1 + ((j - 1 : Nat) : Int) = stemp + (j : Int) := by omega
          have e2 : ltemp + 1 + ((j - 1 : Nat) : Int) = ltemp + (j : Int) := by omega
          rwa [e1, e2] at this
      · rcases hstop with rfl | hne
        · left; rfl
        · right
          have e1 : stemp + 1 + (e : Int) = stemp + ((e + 1 : Nat) : Int) := by push_cast; omega
          have e2 : ltemp + 1 + (e : Int) = ltemp + ((e + 1 : Nat) : Int) := by push_cast; omega
          rwa [e1, e2] at hne
    · refine ⟨0, ?_, by omega, by simp, ?_⟩
      · rw [extend_match, if_neg hc]; rfl
      · right
        have hne : ltemp ≠ endp := by push_cast at h; omega
        simpa using fun h' => hc ⟨hne, h'⟩


/-- Outcome of one candidate: the length computed by lines 111-112 is the exact length of the
common run at distance `d`. -/
theorem candidate_run (uc : Int → Nat) (endp wnd : Int) (hw : wnd < endp) (d : Nat)
    (hc : uc (wnd - d) = uc wnd) :
    let m := extend_match uc endp (endp - (wnd + 1)).toNat (wnd - d + 1) (wnd + 1) (0 + 1)
    2 ≤ m + 1 ∧ IsRun uc endp wnd d m ∧ ∀ m1 : Nat, IsRun uc endp wnd d m1 → m1 ≤ m := by
  intro m
  obtain ⟨e, he, hle, hall, hstop⟩ :=
    extend_match_spec uc endp (endp - (wnd + 1)).toNat (wnd - d + 1) (wnd + 1) (0 + 1) (by omega)
  have hm : m = 1 + e := by simpa using he
  rw [hm]
  refine ⟨by omega, ⟨by omega, ?_⟩, ?_⟩
  · intro j hj
    rcases Nat.eq_zero_or_pos j with rfl | hpos
    · simpa using hc
    · have := hall (j - 1) (by omega)
      have e1 : wnd - d + 1 + ((j - 1 : Nat) : Int) = wnd - d + (j : Int) := by omega
      have e2 : wnd + 1 + ((j - 1 : Nat) : Int) = wnd + (j : Int) := by omega
      rwa [e1, e2] at this
  · intro m1 ⟨hb, heq⟩
    by_contra hlt
    rcases hstop with hF | hne
    · omega
    · have := heq (e + 1) (by omega)
      have e1 : wnd - d + 1 + (e : Int) = wnd - d + ((e + 1 : Nat) : Int) := by push_cast; omega
      have e2 : wnd + 1 + (e : Int) = wnd + ((e + 1 : Nat) : Int) := by push_cast; omega
      rw [e1, e2] at hne
      exact hne this

theorem scan_window_spec (uc : Int → Nat) (start endp wnd : Int) (hw : wnd < endp) :
    ∀ (fuel : Nat) (sptr : Int) (spos pos len : Nat),
      sptr = wnd - 1 - spos → (fuel = 0 ∨ (fuel : Int) = sptr - (start + 1)) →
      Best uc endp wnd spos pos len →
      Best uc endp wnd (spos + fuel) (scan_window uc start endp wnd fuel sptr spos 0 pos len).1
        (scan_window uc start endp wnd fuel sptr spos 0 pos len).2 := by
  intro fuel
  induction fuel with
  | zero => intro sptr spos pos len _ _ hb; simpa [scan_window] using hb
  | succ f ih =>
    intro sptr spos pos len hs hf hb
    have hf1 : ((f + 1 : Nat) : Int) = sptr - (start + 1) := by
      rcases hf with h | h
      · omega
      · exact h
    have hgt : sptr > start + 1 := by push_cast at hf1; omega
    have hsd : sptr = wnd - ((spos + 1 : Nat) : Int) := by push_cast; omega
    have hnext : sptr - 1 = wnd - 1 - ((spos + 1 : Nat) : Int) := by push_cast; omega
    have hfn : f = 0 ∨ (f : Int) = sptr - 1 - (start + 1) := by right; push_cast at hf1; omega
    have hD : spos + (f + 1) = spos + 1 + f := by omega
    obtain ⟨hlen, hmax, hbest⟩ := hb
    rw [scan_window, if_pos hgt, hD]
    by_cases hc : uc sptr = uc wnd
    · rw [if_pos hc]
      have hc1 : uc (wnd - ((spos + 1 : Nat) : Int)) = uc wnd := by rw [← hsd]; exact hc
      have hcr := candidate_run uc endp wnd hw (spos + 1) hc1
      rw [← hsd] at hcr
      obtain ⟨h2, hrun, hup⟩ := hcr
      simp only []
      split
      · rename_i hgt2
        apply ih _ _ _ _ hnext hfn
        refine ⟨by omega, ?_, Or.inr ⟨by omega, le_refl _, by omega, hrun, ?_⟩⟩
        · intro d m hd1 hd2 hr
          rcases Nat.lt_or_ge d (spos + 1) with hlt | hge
          · have := hmax d m hd1 (by omega) hr; omega
          · have : d = spos + 1 := by omega
            subst this; exact hup m hr
        · intro d hd1 hd2 hr
          have := hmax d _ hd1 (by omega) hr; omega
      · rename_i hle2
        apply ih _ _ _ _ hnext hfn
        refine ⟨hlen, ?_, ?_⟩
        · intro d m hd1 hd2 hr
          rcases Nat.lt_or_ge d (spos + 1) with hlt | hge
          · exact hmax d m hd1 (by omega) hr
          · have : d = spos + 1 := by omega
            subst this; have := hup m hr; omega
        · rcases hbest with h | ⟨h1, h2, h3, h4, h5⟩
          · exact Or.inl h
          · exact Or.inr ⟨h1, by omega, h3, h4, h5⟩
    · rw [if_neg hc]
      apply ih _ _ _ _ hnext hfn
      refine ⟨hlen, ?_, ?_⟩
      · intro d m hd1 hd2 hr
        rcases Nat.lt_or_ge d (spos + 1) with hlt | hge
        · exact hmax d m hd1 (by omega) hr
        · have : d = spos + 1 := by omega
          subst this
          rcases Nat.eq_zero_or_pos m with rfl | hpos
          · omega
          · exfalso; apply hc
            have := hr.2 0 hpos
            rw [hsd]; simpa using this
      · rcases hbest with h | ⟨h1, h2, h3, h4, h5⟩
        · exact Or.inl h
        · exact Or.inr ⟨h1, by omega, h3, h4, h5⟩

theorem find_longest_match_spec (uc : Int → Nat) (start endp wnd : Int) (hw : wnd < endp) :
    Best uc endp wnd (ncand start wnd) (find_longest_match uc start endp wnd).1
      (find_longest_match uc start endp wnd).2 := by
  have h := scan_window_spec uc start endp wnd hw (ncand start wnd) (wnd - 1) 0 0 1
    (by simp) (by unfold ncand; omega) ⟨le_refl _, by intro d m h1 h2; omega, Or.inl ⟨rfl, rfl⟩⟩
  simpa [find_longest_match, ncand] using h


theorem scan_window_no_candidate (uc : Int → Nat) (start endp wnd : Int) :
    ∀ (fuel : Nat) (sptr : Int) (spos mlen pos len : Nat),
      (∀ p : Int, start + 1 < p → p ≤ sptr → uc p ≠ uc wnd) →
      scan_window uc start endp wnd fuel sptr spos mlen pos len = (pos, len) := by
  intro fuel
  induction fuel with
  | zero => intros; rfl
  | succ f ih =>
    intro sptr spos mlen pos len h
    rw [scan_window]
    split
    · rename_i hgt
      rw [if_neg (h sptr hgt (le_refl _))]
      exact ih _ _ _ _ _ (fun p h1 h2 => h p h1 (by omega))
    · rfl

theorem find_longest_match_no_candidate (uc : Int → Nat) (start endp wnd : Int)
    (h : ∀ d : Nat, 1 ≤ d → start + 1 < wnd - d → uc (wnd - d) ≠ uc wnd) :
    find_longest_match uc start endp wnd = (0, 1) := by
  apply scan_window_no_candidate
  intro p h1 h2
  have := h (wnd - p).toNat (by omega) (by omega)
  have e : wnd - ((wnd - p).toNat : Int) = p := by omega
  rwa [e] at this

theorem scan_window_at_end (uc : Int → Nat) (start endp wnd : Int) (hw : ¬ wnd < endp) :
    ∀ (fuel : Nat) (sptr : Int) (spos pos len : Nat), 1 ≤ len →
      (scan_window uc start endp wnd fuel sptr spos 0 pos len) = (pos, len) := by
  have hF : (endp - (wnd + 1)).toNat = 0 := by omega
  intro fuel
  induction fuel with
  | zero => intros; rfl
  | succ f ih =>
    intro sptr spos pos len hl
    rw [scan_window, hF]
    simp only [extend_match]
    split
    · split
      · rw [if_neg (by omega)]; exact ih _ _ _ _ hl
      · exact ih _ _ _ _ hl
    · rfl

/-- What `find_longest_match` returns: a length of at least 1, and a valid match when the
length is at least 2. -/
theorem find_longest_match_valid (uc : Int → Nat) (start endp wnd : Int) :
    1 ≤ (find_longest_match uc start endp wnd).2 ∧
    (2 ≤ (find_longest_match uc start endp wnd).2 →
      1 ≤ (find_longest_match uc start endp wnd).1 ∧
      start + 1 < wnd - (find_longest_match uc start endp wnd).1 ∧
      IsRun uc endp wnd (find_longest_match uc start endp wnd).1
        (find_longest_match uc start endp wnd).2) := by
  by_cases hw : wnd < endp
  · obtain ⟨h1, -, h3⟩ := find_longest_match_spec uc start endp wnd hw
    refine ⟨h1, fun h2 => ?_⟩
    rcases h3 with ⟨-, h⟩ | ⟨a, b, -, d, -⟩
    · omega
    · exact ⟨a, by unfold ncand at b; omega, d⟩
  · have := scan_window_at_end uc start endp wnd hw (wnd - 1 - (start + 1)).toNat (wnd - 1) 0 0 1
      (le_refl _)
    unfold find_longest_match
    rw [this]
    exact ⟨le_refl _, fun h => by simp at h⟩

/-- The length returned by `find_longest_match` stays inside the buffer. -/
theorem find_longest_match_le (uc : Int → Nat) (start endp wnd : Int) (hw : wnd < endp) :
    wnd + (find_longest_match uc start endp wnd).2 ≤ endp := by
  obtain ⟨h1, h2⟩ := find_longest_match_valid uc start endp wnd
  by_cases h : 2 ≤ (find_longest_match uc start endp wnd).2
  · exact (h2 h).2.2.1
  · omega

/-! ## Compress driver: loop invariant -/

theorem bytes_length (uc : Int → Nat) (n : Nat) : (bytes uc n).length = n := by
  simp [bytes]

theorem bytes_succ (uc : Int → Nat) (n : Nat) : bytes uc (n + 1) = bytes uc n ++ [uc n] := by
  simp [bytes, List.range_succ]

theorem bytes_get (uc : Int → Nat) (n k : Nat) (h : k < n) : (bytes uc n)[k]? = some (uc k) := by
  simp [bytes, List.getElem?_range h]

theorem bytes_add (uc : Int → Nat) (a b : Nat) :
    bytes uc (a + b) = bytes uc a ++ (List.range b).map (fun k : Nat => uc ((a : Int) + k)) := by
  simp [bytes, List.range_add, List.map_map, Function.comp_def]

theorem copy_literals_eq (uc : Int → Nat) :
    ∀ (nm : Nat) (wnd : Int) (c : List Nat),
      copy_literals uc nm wnd c = c ++ (List.range nm).map (fun k : Nat => uc (wnd + k)) := by
  intro nm
  induction nm with
  | zero => intro wnd c; simp [copy_literals]
  | succ m ih =>
    intro wnd c
    rw [copy_literals, ih, List.range_succ_eq_map]
    simp only [List.map_map, Function.comp_def, List.map_cons, List.append_assoc, List.singleton_append, Nat.cast_zero, add_zero, Nat.succ_eq_add_one, Nat.cast_add, Nat.cast_one]
    congr 2
    apply List.map_congr_left
    intro k _
    congr 1
    omega

theorem write_literal_append (uc : Int → Nat) (wnd : Int) (c : List Nat) (nm : Nat) :
    write_literal uc wnd c nm = (c ++ (write_literal uc wnd [] nm).1, 0) := by
  unfold write_literal
  by_cases h : nm ≠ 0
  · simp only [if_pos h, copy_literals_eq, List.nil_append, List.append_assoc]
  · have : nm = 0 := by omega
    simp [this]

theorem write_match_append (pos len : Nat) (c : List Nat) :
    write_match pos len c = c ++ write_match pos len [] := by
  unfold write_match
  simp only []
  split_ifs <;> simp

theorem write_code_eq (uc : Int → Nat) (pos len : Nat) (wnd : Int) (c : List Nat) (nm : Nat) :
    write_code uc pos len wnd c nm =
      (c ++ (write_literal uc wnd [] nm).1 ++ write_match pos len [], 0) := by
  unfold write_code
  simp only []
  rw [write_literal_append, write_match_append]

theorem write_literal_zero (uc : Int → Nat) (wnd : Int) : (write_literal uc wnd [] 0).1 = [] := by
  simp [write_literal]

theorem write_match_small (pos len : Nat) (h : len < MINMATCH) : write_match pos len [] = [] := by
  simp [write_match, h]

theorem copy_match_bytes (uc : Int → Nat) (pos : Nat) (hpos : 1 ≤ pos) :
    ∀ (len m : Nat), pos ≤ m →
      (∀ k : Nat, k < len → uc ((m : Int) - pos + k) = uc ((m : Int) + k)) →
      copy_match len (m - pos) (bytes uc m) = some (bytes uc (m + len)) := by
  intro len
  induction len with
  | zero => intro m _ _; simp [copy_match]
  | succ l ih =>
    intro m hm h
    have h0 := h 0 (by omega)
    have e0 : ((m : Int) - pos + ((0 : Nat) : Int)) = ((m - pos : Nat) : Int) := by omega
    rw [e0] at h0
    rw [copy_match, bytes_get uc m (m - pos) (by omega)]
    simp only []
    have e1 : m - pos + 1 = (m + 1) - pos := by omega
    have e2 : bytes uc m ++ [uc ((m - pos : Nat) : Int)] = bytes uc (m + 1) := by
      rw [bytes_succ, h0]; simp
    rw [e1, e2, ih (m + 1) (by omega), show m + 1 + l = m + (l + 1) by omega]
    intro k hk
    have := h (k + 1) (by omega)
    have a1 : (((m + 1 : Nat) : Int) - pos + k) = ((m : Int) - pos + ((k + 1 : Nat) : Int)) := by
      push_cast; omega
    have a2 : (((m + 1 : Nat) : Int) + k) = ((m : Int) + ((k + 1 : Nat) : Int)) := by
      push_cast; omega
    rw [a1, a2]; exact this


theorem enc_flush (uc : Int → Nat) (i nm : Nat) (c : List Nat) (h : nm ≤ i) (h32 : i < 2 ^ 32)
    (he : Enc c (bytes uc (i - nm))) :
    Enc (c ++ (write_literal uc i [] nm).1) (bytes uc i) := by
  rcases Nat.eq_zero_or_pos nm with rfl | hpos
  · simpa [write_literal_zero] using he
  · have := Enc.lit uc (i : Int) nm he hpos (by omega)
    have e : bytes uc i = bytes uc (i - nm) ++
        (List.range nm).map (fun k : Nat => uc ((i : Int) - nm + k)) := by
      have := bytes_add uc (i - nm) nm
      rw [show i - nm + nm = i by omega] at this
      rw [this, Nat.cast_sub h]
    rw [e]; exact this

theorem compress_step_unfold (uc : Int → Nat) (n : Nat) (s : CState) :
    compress_step uc n s =
      if (find_longest_match uc (eff_start s) n s.wnd).2 ≥ MINMATCH then
        ⟨s.i + (find_longest_match uc (eff_start s) n s.wnd).2,
         (write_code uc (find_longest_match uc (eff_start s) n s.wnd).1
            (find_longest_match uc (eff_start s) n s.wnd).2 s.wnd s.cptr s.nm).2,
         (find_longest_match uc (eff_start s) n s.wnd).2,
         (find_longest_match uc (eff_start s) n s.wnd).1,
         s.wnd + (find_longest_match uc (eff_start s) n s.wnd).2, eff_start s,
         (write_code uc (find_longest_match uc (eff_start s) n s.wnd).1
            (find_longest_match uc (eff_start s) n s.wnd).2 s.wnd s.cptr s.nm).1⟩
      else
        ⟨s.i + (find_longest_match uc (eff_start s) n s.wnd).2,
         s.nm + (find_longest_match uc (eff_start s) n s.wnd).2,
         (find_longest_match uc (eff_start s) n s.wnd).2,
         (find_longest_match uc (eff_start s) n s.wnd).1,
         s.wnd + (find_longest_match uc (eff_start s) n s.wnd).2, eff_start s, s.cptr⟩ := rfl

theorem compress_step_inv (uc : Int → Nat) (n : Nat) (h32 : n < 2 ^ 32) (s : CState)
    (hi : s.i < n) (inv : CInv uc n s) : CInv uc n (compress_step uc n s) := by
  obtain ⟨hw, hin, hnm, hlo, hhi, henc, hpend⟩ := inv
  have hlt : s.wnd < (n : Int) := by rw [hw]; exact_mod_cast hi
  obtain ⟨h1, h2⟩ := find_longest_match_valid uc (eff_start s) n s.wnd
  have hle := find_longest_match_le uc (eff_start s) n s.wnd hlt
  rw [compress_step_unfold]
  generalize find_longest_match uc (eff_start s) n s.wnd = r at h1 h2 hle
  generalize eff_start s = es at hlo hhi h2 ⊢
  obtain ⟨pos, len⟩ := r
  simp only at h1 h2 hle ⊢
  rw [hw] at hle
  have hlen : s.i + len ≤ n := by exact_mod_cast hle
  have hW : WINDOWSIZE = 4096 := rfl
  split
  · rename_i h3
    have hM : MINMATCH = 3 := rfl
    obtain ⟨hp1, hp2, hrun⟩ := h2 (by omega)
    rw [hw] at hp2 hrun
    rw [write_code_eq]
    refine ⟨by simp only []; rw [hw]; push_cast; rfl, hlen, Nat.zero_le _, ?_, ?_, ?_, ?_⟩
    · simp only [eff_start]; split <;> omega
    · simp only [eff_start]; split <;> push_cast <;> omega
    · simp only [Nat.sub_zero]
      have e1 := enc_flush uc s.i s.nm s.cptr hnm (by omega) henc
      rw [hw]
      refine Enc.mtch pos len e1 hp1 ?_ ?_ h3 (by omega) ?_
      · rw [bytes_length]; omega
      · omega
      · rw [bytes_length]
        exact copy_match_bytes uc pos hp1 len s.i (by omega) hrun.2
    · intro h; exact absurd rfl h
  · rename_i h3
    refine ⟨by simp only []; rw [hw]; push_cast; rfl, hlen, by simp only []; omega, ?_, ?_, ?_, ?_⟩
    · simp only [eff_start]; split <;> omega
    · simp only [eff_start]; split <;> push_cast <;> omega
    · simp only []
      rw [show s.i + len - (s.nm + len) = s.i - s.nm by omega]; exact henc
    · intro _; simp only []; omega

theorem compress_init_inv (uc : Int → Nat) (n : Nat) : CInv uc n compress_init := by
  refine ⟨rfl, Nat.zero_le _, le_refl _, by decide, by decide, ?_, fun h => absurd rfl h⟩
  exact Enc.nil

theorem compress_iter_inv (uc : Int → Nat) (n : Nat) (h32 : n < 2 ^ 32) :
    ∀ k, CInv uc n (compress_iter uc n k) := by
  intro k
  induction k with
  | zero => exact compress_init_inv uc n
  | succ k ih =>
    rw [compress_iter, compress_next]
    split
    · rename_i h; exact compress_step_inv uc n h32 _ h ih
    · exact ih


theorem compress_step_i (uc : Int → Nat) (n : Nat) (s : CState) :
    (compress_step uc n s).i = s.i + (find_longest_match uc (eff_start s) n s.wnd).2 := by
  rw [compress_step_unfold]
  split <;> rfl

theorem compress_iter_progress (uc : Int → Nat) (n : Nat) :
    ∀ k, k ≤ (compress_iter uc n k).i ∨ n ≤ (compress_iter uc n k).i := by
  intro k
  induction k with
  | zero => left; exact Nat.zero_le _
  | succ k ih =>
    rw [compress_iter, compress_next]
    split
    · rename_i h
      left
      rw [compress_step_i]
      have := (find_longest_match_valid uc (eff_start (compress_iter uc n k)) n
        (compress_iter uc n k).wnd).1
      omega
    · right; omega

theorem compress_iter_stuck (uc : Int → Nat) (n : Nat) (k : Nat)
    (h : ¬ (compress_iter uc n k).i < n) : ∀ j, compress_iter uc n (k + j) = compress_iter uc n k := by
  intro j
  induction j with
  | zero => rfl
  | succ j ih =>
    rw [← Nat.add_assoc, compress_iter, ih, compress_next, if_neg h]

theorem compress_loop_iter (uc : Int → Nat) (n : Nat) :
    ∀ (fuel k : Nat), compress_loop uc n fuel (compress_iter uc n k) = compress_iter uc n (k + fuel) := by
  intro fuel
  induction fuel with
  | zero => intro k; rfl
  | succ f ih =>
    intro k
    rw [compress_loop]
    split
    · rename_i h
      have : compress_step uc n (compress_iter uc n k) = compress_iter uc n (k + 1) := by
        rw [compress_iter, compress_next, if_pos h]
      rw [this, ih, show k + 1 + f = k + (f + 1) by omega]
    · rename_i h
      exact (compress_iter_stuck uc n k h (f + 1)).symm

theorem compress_eq (uc : Int → Nat) (n : Nat) :
    compress uc n =
      if (compress_iter uc n n).nm ≠ 0 then
        (write_code uc (compress_iter uc n n).pos (compress_iter uc n n).len
          (compress_iter uc n n).wnd (compress_iter uc n n).cptr (compress_iter uc n n).nm).1
      else (compress_iter uc n n).cptr := by
  have := compress_loop_iter uc n n 0
  rw [Nat.zero_add] at this
  unfold compress
  simp only []
  rw [show compress_init = compress_iter uc n 0 from rfl, this]

theorem compress_final_i (uc : Int → Nat) (n : Nat) (h32 : n < 2 ^ 32) :
    (compress_iter uc n n).i = n := by
  have h1 := (compress_iter_inv uc n h32 n).i_le
  rcases compress_iter_progress uc n n with h | h <;> omega

/-- The output of `compress` is a stream of codes standing for the input. -/
theorem compress_enc (uc : Int → Nat) (n : Nat) (h32 : n < 2 ^ 32) :
    Enc (compress uc n) (bytes uc n) := by
  have inv := compress_iter_inv uc n h32 n
  have hi := compress_final_i uc n h32
  rw [compress_eq]
  obtain ⟨hw, hin, hnm, hlo, hhi, henc, hpend⟩ := inv
  split
  · rename_i h
    rw [write_code_eq, write_match_small _ _ (hpend h), List.append_nil, hw]
    have := enc_flush uc _ _ _ hnm (by omega) henc
    rwa [hi] at this ⊢
  · rename_i h
    have : (compress_iter uc n n).nm = 0 := by omega
    rw [this, Nat.sub_zero, hi] at henc
    exact henc

/-! ## Codes: what `write_code` writes and how `decompress` reads it back -/

theorem or_disjoint (x y i : Nat) (hx : x % 2 ^ i = 0) (hy : y < 2 ^ i) : x ||| y = x + y := by
  have h := Nat.mul_add_lt_is_or hy (x / 2 ^ i)
  have e : 2 ^ i * (x / 2 ^ i) = x := by
    have := Nat.div_add_mod x (2 ^ i)
    omega
  rw [e] at h
  exact h.symm

theorem and_mask (x k : Nat) (hk : k ≤ 15) : x &&& (0xFFFF >>> (16 - (k + 1))) = x % 2 ^ (k + 1) := by
  have : 0xFFFF >>> (16 - (k + 1)) = 2 ^ (k + 1) - 1 := by
    interval_cases k <;> rfl
  rw [this, Nat.and_pow_two_sub_one_eq_mod]

theorem and_0xF (x : Nat) : x &&& 0xF = x % 16 := Nat.and_pow_two_sub_one_eq_mod x 4
theorem and_0x7FF (x : Nat) : x &&& 0x7FF = x % 2048 := Nat.and_pow_two_sub_one_eq_mod x 11
theorem and_0xFFF (x : Nat) : x &&& 0xFFF = x % 4096 := Nat.and_pow_two_sub_one_eq_mod x 12

/-- The byte swap `(cinfo << 8) | (cinfo >> 8)` stored as a `u16`: most significant byte first. -/
theorem le16_swap (N : Nat) (h : N < 65536) :
    le16 ((N <<< 8) ||| (N >>> 8)) = [N / 256, N % 256] := by
  have e : (N <<< 8) ||| (N >>> 8) = N * 256 + N / 256 := by
    rw [Nat.shiftLeft_eq, Nat.shiftRight_eq_div_pow]
    exact or_disjoint _ _ 8 (by omega) (by omega)
  have e1 : (N * 256 + N / 256) % 256 = N / 256 := by omega
  have e2 : (N * 256 + N / 256) / 256 = N := by omega
  rw [e, le16, e1, e2]

/-- The byte swap of the decoder recovers the 16-bit word. -/
theorem rd16_swap (a b : Nat) (ha : a < 256) (hb : b < 256) :
    (((a + 256 * b) >>> 8) ||| ((a + 256 * b) <<< 8)) % 2 ^ 16 = 256 * a + b := by
  have e : ((a + 256 * b) >>> 8) ||| ((a + 256 * b) <<< 8) = (a + 256 * b) * 256 + b := by
    rw [Nat.shiftLeft_eq, Nat.shiftRight_eq_div_pow, Nat.or_comm]
    have : (a + 256 * b) / 2 ^ 8 = b := by omega
    rw [this]
    exact or_disjoint _ _ 8 (by omega) (by omega)
  rw [e]; omega

theorem bit7_clear : ∀ b : Nat, b < 128 → b &&& 0x80 = 0 := by decide!
theorem bit7_set : ∀ b : Nat, b < 256 → 128 ≤ b → b &&& 0x80 ≠ 0 := by decide!
theorem small_and_0x60 : ∀ b : Nat, b < 32 → b &&& 0x60 = 0 := by decide

theorem MSBi32_bounds (n : Nat) (h0 : 1 ≤ n) (h32 : n < 2 ^ 32) :
    2 ^ MSBi32 n ≤ n ∧ n < 2 ^ (MSBi32 n + 1) := by
  rw [MSBi32_eq_log2 n h0 h32]
  exact ⟨Nat.log2_self_le (by omega), Nat.lt_log2_self⟩

/-- Compact form of the Match Code: the 16-bit word and its two bytes. -/
theorem write_match_compact (pos len : Nat) (hp1 : 1 ≤ pos) (hp : pos < 2 ^ 32)
    (hl : MINMATCH ≤ len) (hl32 : len < 2 ^ 32) (hc : MSBi32 pos + MSBi32 len < 10) :
    write_match pos len [] =
      [(0x8000 + MSBi32 pos * 2048 + len * 2 ^ (MSBi32 pos + 1) + pos) / 256,
       (0x8000 + MSBi32 pos * 2048 + len * 2 ^ (MSBi32 pos + 1) + pos) % 256] ∧
    len * 2 ^ (MSBi32 pos + 1) + pos < 2048 ∧ pos < 2 ^ (MSBi32 pos + 1) ∧ MSBi32 pos < 9 := by
  have hM : MINMATCH = 3 := rfl
  obtain ⟨hk1, hk2⟩ := MSBi32_bounds pos hp1 hp
  obtain ⟨hj1, hj2⟩ := MSBi32_bounds len (by omega) hl32
  have hj0 : 1 ≤ MSBi32 len := by
    by_contra h
    have : MSBi32 len = 0 := by omega
    rw [this] at hj2; norm_num at hj2; omega
  have hk9 : MSBi32 pos < 9 := by omega
  have hY : len * 2 ^ (MSBi32 pos + 1) < 2048 := by
    have h1 : len * 2 ^ (MSBi32 pos + 1) < 2 ^ (MSBi32 len + 1) * 2 ^ (MSBi32 pos + 1) :=
      Nat.mul_lt_mul_of_pos_right hj2 (by positivity)
    have h2 : 2 ^ (MSBi32 len + 1) * 2 ^ (MSBi32 pos + 1) ≤ 2 ^ 11 := by
      rw [← pow_add]; exact Nat.pow_le_pow_right (by decide) (by omega)
    omega
  have hYm : len * 2 ^ (MSBi32 pos + 1) % 2 ^ (MSBi32 pos + 1) = 0 := Nat.mul_mod_left _ _
  have hpw : 2 ^ (MSBi32 pos + 1) ≤ 512 := by
    calc 2 ^ (MSBi32 pos + 1) ≤ 2 ^ 9 := Nat.pow_le_pow_right (by decide) (by omega)
      _ = 512 := by norm_num
  have hlp : len * 2 ^ (MSBi32 pos + 1) + pos < 2048 := by
    have := Nat.div_add_mod (len * 2 ^ (MSBi32 pos + 1) + pos) (2 ^ (MSBi32 pos + 1))
    have hq : (len * 2 ^ (MSBi32 pos + 1) + pos) / 2 ^ (MSBi32 pos + 1) = len := by
      rw [Nat.mul_comm, Nat.mul_add_div (by positivity), Nat.div_eq_of_lt hk2]; rfl
    have hlt : (len + 1) * 2 ^ (MSBi32 pos + 1) ≤ 2 ^ 11 := by
      have : len + 1 ≤ 2 ^ (MSBi32 len + 1) := hj2
      calc (len + 1) * 2 ^ (MSBi32 pos + 1) ≤ 2 ^ (MSBi32 len + 1) * 2 ^ (MSBi32 pos + 1) :=
            Nat.mul_le_mul_right _ this
        _ ≤ 2 ^ 11 := by rw [← pow_add]; exact Nat.pow_le_pow_right (by decide) (by omega)
    have : (len + 1) * 2 ^ (MSBi32 pos + 1) = len * 2 ^ (MSBi32 pos + 1) + 2 ^ (MSBi32 pos + 1) := by
      ring
    omega
  refine ⟨?_, hlp, hk2, hk9⟩
  have e1 : (len <<< (MSBi32 pos + 1)) % 2 ^ 32 = len * 2 ^ (MSBi32 pos + 1) := by
    rw [Nat.shiftLeft_eq]; exact Nat.mod_eq_of_lt (by omega)
  have e2 : len * 2 ^ (MSBi32 pos + 1) ||| pos = len * 2 ^ (MSBi32 pos + 1) + pos :=
    or_disjoint _ _ _ hYm hk2
  have e3 : (0x8000 ||| (len * 2 ^ (MSBi32 pos + 1) + pos)) % 2 ^ 16 =
      0x8000 + (len * 2 ^ (MSBi32 pos + 1) + pos) := by
    rw [or_disjoint 0x8000 _ 15 (by norm_num) (by omega)]; omega
  have e4 : ((0x8000 + (len * 2 ^ (MSBi32 pos + 1) + pos)) ||| (MSBi32 pos <<< 11)) % 2 ^ 16 =
      0x8000 + MSBi32 pos * 2048 + len * 2 ^ (MSBi32 pos + 1) + pos := by
    rw [← or_disjoint 0x8000 _ 15 (by norm_num) (show len * 2 ^ (MSBi32 pos + 1) + pos < 2 ^ 15 by omega),
      Nat.or_assoc, Nat.or_comm (len * 2 ^ (MSBi32 pos + 1) + pos), Nat.shiftLeft_eq,
      or_disjoint (MSBi32 pos * 2 ^ 11) _ 11 (Nat.mul_mod_left _ _) (by omega),
      or_disjoint 0x8000 _ 15 (by norm_num) (by omega)]
    omega
  unfold write_match
  rw [if_pos hl]
  simp only []
  rw [if_pos (by omega), e1, e2, e3, e4, le16_swap _ (by omega)]
  rfl


/-- Extended form of the Match Code: the 16-bit word, its two bytes and the length bytes. -/
theorem write_match_extended (pos len : Nat) (hp1 : 1 ≤ pos) (hp : pos < 4096)
    (hl : MINMATCH ≤ len) (hc : ¬ MSBi32 pos + MSBi32 len < 10) :
    write_match pos len [] =
      [(0x8000 + (if len ≤ 0xFF then 10 else if len ≤ 0xFFFF then 12 else 14) * 2048 + pos) / 256,
       (0x8000 + (if len ≤ 0xFF then 10 else if len ≤ 0xFFFF then 12 else 14) * 2048 + pos) % 256]
      ++ (if len ≤ 0xFF then le8 len else if len ≤ 0xFFFF then le16 len else le32 len) := by
  obtain ⟨hk1, hk2⟩ := MSBi32_bounds pos hp1 (by omega)
  have key : ∀ e : Nat, e = 10 ∨ e = 12 ∨ e = 14 →
      (((0x8000 ||| ((e + (if MSBi32 pos = 12 - 1 then 1 else 0)) <<< 11)) % 2 ^ 16) ||| pos) % 2 ^ 16
        = 0x8000 + e * 2048 + pos := by
    intro e he
    have hA : (0x8000 + e * 2048) % 2 ^ 12 = 0 := by rcases he with rfl | rfl | rfl <;> rfl
    by_cases h11 : MSBi32 pos = 12 - 1
    · rw [if_pos h11]
      have h11a : MSBi32 pos = 11 := h11
      rw [h11a] at hk1
      have e1 : (0x8000 ||| ((e + 1) <<< 11)) % 2 ^ 16 = (0x8000 + e * 2048) ||| 2048 := by
        rcases he with rfl | rfl | rfl <;> rfl
      have e2 : pos = 2048 ||| (pos - 2048) := by
        rw [or_disjoint 2048 _ 11 (by norm_num) (by omega)]; omega
      rw [e1, e2, Nat.or_assoc, ← Nat.or_assoc 2048, Nat.or_self, ← e2,
        or_disjoint _ _ 12 hA (by omega)]
      rcases he with rfl | rfl | rfl <;> omega
    · rw [if_neg h11]
      have e1 : (0x8000 ||| ((e + 0) <<< 11)) % 2 ^ 16 = 0x8000 + e * 2048 := by
        rcases he with rfl | rfl | rfl <;> rfl
      rw [e1, or_disjoint _ _ 12 hA (by omega)]
      rcases he with rfl | rfl | rfl <;> omega
  unfold write_match
  rw [if_pos hl]
  simp only []
  rw [if_neg hc]
  by_cases h1 : len ≤ 0xFF
  · have h2 : len ≤ 0xFFFF := by omega
    simp only [h1, h2, if_true]
    rw [key 10 (Or.inl rfl), le16_swap _ (by omega)]
    have : (10 + if MSBi32 pos = 12 - 1 then 1 else 0) < 12 := by split <;> omega
    rw [if_pos this]
    simp
  · by_cases h2 : len ≤ 0xFFFF
    · simp only [h1, h2, if_true, if_false]
      rw [key 12 (Or.inr (Or.inl rfl)), le16_swap _ (by omega)]
      have a1 : ¬ (12 + if MSBi32 pos = 12 - 1 then 1 else 0) < 12 := by split <;> omega
      have a2 : (12 + if MSBi32 pos = 12 - 1 then 1 else 0) < 14 := by split <;> omega
      rw [if_neg a1, if_pos a2]
      simp
    · simp only [h1, h2, if_false]
      rw [key 14 (Or.inr (Or.inr rfl)), le16_swap _ (by omega)]
      have a1 : ¬ (14 + if MSBi32 pos = 12 - 1 then 1 else 0) < 12 := by split <;> omega
      have a2 : ¬ (14 + if MSBi32 pos = 12 - 1 then 1 else 0) < 14 := by split <;> omega
      rw [if_neg a1, if_neg a2]
      simp

theorem get_pre (pre l : List Nat) (j : Nat) : (pre ++ l)[pre.length + j]? = l[j]? := by
  simp [List.getElem?_append_right]

theorem get_pre0 (pre t : List Nat) (x : Nat) : (pre ++ x :: t)[pre.length]? = some x := by
  have := get_pre pre (x :: t) 0
  simpa using this

theorem rd8_pre (pre l : List Nat) (j : Nat) : rd8 (pre ++ l) (pre.length + j) = rd8 l j := by
  simp [rd8, get_pre]

theorem rd16_pre (pre l : List Nat) (j : Nat) : rd16 (pre ++ l) (pre.length + j) = rd16 l j := by
  simp [rd16, get_pre, Nat.add_assoc]

theorem rd32_pre (pre l : List Nat) (j : Nat) : rd32 (pre ++ l) (pre.length + j) = rd32 l j := by
  simp [rd32, get_pre, Nat.add_assoc]

theorem copy_raw_eq (raw : List Nat) :
    ∀ (a post w : List Nat),
      copy_raw (a ++ (raw ++ post)) raw.length a.length w = some (a.length + raw.length, w ++ raw) := by
  induction raw with
  | nil => intro a post w; simp [copy_raw]
  | cons x xs ih =>
    intro a post w
    rw [List.length_cons, copy_raw, List.cons_append, get_pre0]
    simp only []
    have := ih (a ++ [x]) post (w ++ [x])
    simp only [List.append_assoc, List.singleton_append, List.length_append, List.length_singleton]
      at this
    rw [this]
    simp only [Option.some.injEq, Prod.mk.injEq, and_true]
    omega


theorem compact_fields (k len pos : Nat) (hk : k < 9) (hpos : pos < 2 ^ (k + 1))
    (hY : len * 2 ^ (k + 1) + pos < 2048) :
    ((0x8000 + k * 2048 + len * 2 ^ (k + 1) + pos) >>> 11) &&& 0xF = k ∧
    ((0x8000 + k * 2048 + len * 2 ^ (k + 1) + pos) &&& 0x7FF) >>> (k + 1) = len ∧
    (0x8000 + k * 2048 + len * 2 ^ (k + 1) + pos) &&& (0xFFFF >>> (16 - (k + 1))) = pos := by
  rw [and_0xF, and_0x7FF, and_mask _ k (by omega), Nat.shiftRight_eq_div_pow,
    Nat.shiftRight_eq_div_pow]
  interval_cases k <;> norm_num at hpos hY ⊢ <;> omega

theorem extended_fields (e pos : Nat) (he : e = 10 ∨ e = 12 ∨ e = 14) (hp : pos < 4096) :
    ¬ (((0x8000 + e * 2048 + pos) >>> 11) &&& 0xF < 11 - 1) ∧
    (((0x8000 + e * 2048 + pos) >>> 11) &&& 0xF) &&& 0xE = e ∧
    (0x8000 + e * 2048 + pos) &&& 0xFFF = pos := by
  rw [and_0xF, and_0xFFF, Nat.shiftRight_eq_div_pow]
  have h : (0x8000 + e * 2048 + pos) / 2 ^ 11 % 16 = e ∨
      (0x8000 + e * 2048 + pos) / 2 ^ 11 % 16 = e + 1 := by
    rcases he with rfl | rfl | rfl <;> omega
  refine ⟨by rcases he with rfl | rfl | rfl <;> omega, ?_, by rcases he with rfl | rfl | rfl <;> omega⟩
  rcases h with h | h <;> rw [h] <;> rcases he with rfl | rfl | rfl <;> rfl

theorem word_bytes (N : Nat) (h : N < 65536) :
    ((((N / 256 + 256 * (N % 256)) >>> 8) ||| ((N / 256 + 256 * (N % 256)) <<< 8)) % 2 ^ 16) = N := by
  rw [rd16_swap _ _ (by omega) (by omega)]; omega

theorem rd16_cons (a b : Nat) (t : List Nat) (pre : List Nat) :
    rd16 (pre ++ a :: b :: t) pre.length = some (a + 256 * b) := by
  have := rd16_pre pre (a :: b :: t) 0
  rw [Nat.add_zero] at this
  rw [this]; simp [rd16]

theorem rd8_cons (a : Nat) (t : List Nat) (pre : List Nat) :
    rd8 (pre ++ a :: t) pre.length = some a := by
  have := rd8_pre pre (a :: t) 0
  rw [Nat.add_zero] at this
  rw [this]; simp [rd8]

/-- The match branch of `decompress` inverts the match part of `write_code`. -/
theorem decode_match_code (pos len : Nat) (hp1 : 1 ≤ pos) (hp : pos < 4096)
    (hl : MINMATCH ≤ len) (hl32 : len < 2 ^ 32) (pre post w w1 : List Nat)
    (hpw : pos ≤ w.length) (hcm : copy_match len (w.length - pos) w = some w1) :
    decode_match (pre ++ (write_match pos len [] ++ post)) pre.length w =
      some (pre.length + (write_match pos len []).length, w1) := by
  by_cases hc : MSBi32 pos + MSBi32 len < 10
  · obtain ⟨hw, hlp, hk2, hk9⟩ := write_match_compact pos len hp1 (by omega) hl hl32 hc
    obtain ⟨f1, f2, f3⟩ := compact_fields (MSBi32 pos) len pos hk9 hk2 hlp
    rw [hw]
    unfold decode_match
    simp only [List.cons_append, List.nil_append, rd16_cons]
    rw [word_bytes _ (by omega), f1, if_pos (by omega), f2, f3, if_pos hpw, hcm]
    rfl
  · have hw := write_match_extended pos len hp1 hp hl hc
    rw [hw]
    unfold decode_match
    simp only [List.cons_append, List.nil_append, rd16_cons]
    by_cases h1 : len ≤ 0xFF
    · obtain ⟨f1, f2, f3⟩ := extended_fields 10 pos (Or.inl rfl) hp
      simp only [h1, if_true] at f1 f2 f3 ⊢
      rw [word_bytes _ (by omega), if_neg f1, f2, f3]
      have r : rd8 (pre ++ (32768 + 10 * 2048 + pos) / 256 :: (32768 + 10 * 2048 + pos) % 256
          :: (le8 len ++ post)) (pre.length + 2) = some len := by
        rw [rd8_pre]; simp [rd8, le8]; omega
      simp only [show (10 : Nat) ≠ 14 by decide, show (10 : Nat) ≠ 12 by decide, if_false, r,
        Option.map_some', if_pos hpw, hcm]
      simp [le8]
    · by_cases h2 : len ≤ 0xFFFF
      · obtain ⟨f1, f2, f3⟩ := extended_fields 12 pos (Or.inr (Or.inl rfl)) hp
        simp only [h1, h2, if_true, if_false] at f1 f2 f3 ⊢
        rw [word_bytes _ (by omega), if_neg f1, f2, f3]
        have r : rd16 (pre ++ (32768 + 12 * 2048 + pos) / 256 :: (32768 + 12 * 2048 + pos) % 256
            :: (le16 len ++ post)) (pre.length + 2) = some len := by
          rw [rd16_pre]; simp [rd16, le16]; omega
        simp only [show (12 : Nat) ≠ 14 by decide, if_true, if_false, r,
          Option.map_some', if_pos hpw, hcm]
        simp [le16]
      · obtain ⟨f1, f2, f3⟩ := extended_fields 14 pos (Or.inr (Or.inr rfl)) hp
        simp only [h1, h2, if_false] at f1 f2 f3 ⊢
        rw [word_bytes _ (by omega), if_neg f1, f2, f3]
        have r : rd32 (pre ++ (32768 + 14 * 2048 + pos) / 256 :: (32768 + 14 * 2048 + pos) % 256
            :: (le32 len ++ post)) (pre.length + 2) = some len := by
          rw [rd32_pre]; simp [rd32, le32]; omega
        simp only [if_true, r, Option.map_some', if_pos hpw, hcm]
        simp [le32]


theorem write_literal_form (uc : Int → Nat) (wnd : Int) (nm : Nat) (h1 : 1 ≤ nm)
    (h32 : nm < 2 ^ 32) :
    (write_literal uc wnd [] nm).1 =
      lit_header nm ++ (List.range nm).map (fun k : Nat => uc (wnd - nm + k)) := by
  unfold write_literal lit_header
  rw [if_pos (by omega)]
  simp only [copy_literals_eq, List.nil_append]
  congr 1
  by_cases c1 : nm < 32
  · simp only [c1, if_true, le8, Nat.zero_or]
    rw [Nat.mod_eq_of_lt (by omega)]
  · by_cases c2 : nm - 31 ≤ 0xFF
    · simp only [c1, c2, if_true, if_false, le8]
      rw [Nat.mod_eq_of_lt (show nm - 31 < 256 by omega)]; rfl
    · by_cases c3 : nm - 31 ≤ 0xFFFF
      · simp only [c1, c2, c3, if_true, if_false, le8, le16]
        rw [Nat.mod_eq_of_lt (show (nm - 31) / 256 < 256 by omega)]; rfl
      · simp only [c1, c2, c3, if_false, le8, le32]
        rw [Nat.mod_eq_of_lt (show (nm - 31) / 16777216 < 256 by omega)]; rfl

theorem lit_header_pos (nm : Nat) : 1 ≤ (lit_header nm).length := by
  unfold lit_header; split_ifs <;> simp

/-- The literal branch of `decompress` inverts the literal part of `write_code`. -/
theorem decode_literal_code (uc : Int → Nat) (wnd : Int) (nm : Nat) (h1 : 1 ≤ nm)
    (h32 : nm < 2 ^ 32) (pre post w : List Nat) :
    decode_literal (pre ++ ((write_literal uc wnd [] nm).1 ++ post)) pre.length w =
      some (pre.length + ((write_literal uc wnd [] nm).1).length,
        w ++ (List.range nm).map (fun k : Nat => uc (wnd - nm + k))) := by
  rw [write_literal_form uc wnd nm h1 h32]
  generalize hraw : (List.range nm).map (fun k : Nat => uc (wnd - nm + k)) = raw
  have hlen : raw.length = nm := by rw [← hraw]; simp
  unfold decode_literal lit_header
  by_cases c1 : nm < 32
  · have hb := small_and_0x60 nm c1
    simp only [c1, if_true, List.cons_append, List.nil_append, rd8_cons, hb,
      show (0 : Nat) ≠ 0x60 by decide, show (0 : Nat) ≠ 0x40 by decide,
      show (0 : Nat) ≠ 0x20 by decide, if_false]
    have := copy_raw_eq raw (pre ++ [nm]) post w
    simp only [List.append_assoc, List.singleton_append, List.length_append,
      List.length_singleton, hlen] at this
    rw [this]
    simp [hlen]; omega
  · by_cases c2 : nm - 31 ≤ 0xFF
    · simp only [c1, c2, if_true, if_false, List.cons_append, List.nil_append, rd8_cons]
      have r : rd8 (pre ++ 63 :: (nm - 31) :: (raw ++ post)) (pre.length + 1) = some (nm - 31) := by
        rw [rd8_pre]; simp [rd8]
      have hm : (31 + (nm - 31)) % 2 ^ 32 = nm := by omega
      simp only [show (63 : Nat) &&& 0x60 = 0x20 by decide, show (0x20 : Nat) ≠ 0x60 by decide,
        show (0x20 : Nat) ≠ 0x40 by decide, if_true, if_false, r, Option.map_some', hm]
      have := copy_raw_eq raw (pre ++ [63, nm - 31]) post w
      simp only [List.append_assoc, List.cons_append, List.nil_append, List.length_append,
        List.length_cons, List.length_nil, hlen] at this
      rw [this]
      simp [hlen]; omega
    · by_cases c3 : nm - 31 ≤ 0xFFFF
      · simp only [c1, c2, c3, if_true, if_false, List.cons_append, List.nil_append, rd8_cons]
        have r : rd16 (pre ++ 95 :: (nm - 31) % 256 :: (nm - 31) / 256 :: (raw ++ post))
            (pre.length + 1) = some (nm - 31) := by
          rw [rd16_pre]; simp [rd16]; omega
        have hm : (31 + (nm - 31)) % 2 ^ 32 = nm := by omega
        simp only [show (95 : Nat) &&& 0x60 = 0x40 by decide, show (0x40 : Nat) ≠ 0x60 by decide,
          if_true, if_false, r, Option.map_some', hm]
        have := copy_raw_eq raw (pre ++ [95, (nm - 31) % 256, (nm - 31) / 256]) post w
        simp only [List.append_assoc, List.cons_append, List.nil_append, List.length_append,
          List.length_cons, List.length_nil, hlen] at this
        rw [this]
        simp [hlen]; omega
      · simp only [c1, c2, c3, if_false, List.cons_append, List.nil_append, rd8_cons]
        have r : rd32 (pre ++ 127 :: (nm - 31) % 256 :: (nm - 31) / 256 % 256 ::
            (nm - 31) / 65536 % 256 :: (nm - 31) / 16777216 :: (raw ++ post))
            (pre.length + 1) = some (nm - 31) := by
          rw [rd32_pre]; simp [rd32]; omega
        have hm : (31 + (nm - 31)) % 2 ^ 32 = nm := by omega
        simp only [show (127 : Nat) &&& 0x60 = 0x60 by decide, if_true, r, Option.map_some', hm]
        have := copy_raw_eq raw (pre ++ [127, (nm - 31) % 256, (nm - 31) / 256 % 256,
          (nm - 31) / 65536 % 256, (nm - 31) / 16777216]) post w
        simp only [List.append_assoc, List.cons_append, List.nil_append, List.length_append,
          List.length_cons, List.length_nil, hlen] at this
        rw [this]
        simp [hlen]; omega

/-! ## Decoder: running the loop over a stream of codes -/

theorem lit_first (uc : Int → Nat) (wnd : Int) (nm : Nat) (h1 : 1 ≤ nm) (h32 : nm < 2 ^ 32) :
    ∃ b t, (write_literal uc wnd [] nm).1 = b :: t ∧ b < 128 := by
  rw [write_literal_form uc wnd nm h1 h32]
  unfold lit_header
  split_ifs
  · exact ⟨nm, _, rfl, by omega⟩
  · exact ⟨0x3F, _, rfl, by decide⟩
  · exact ⟨0x5F, _, rfl, by decide⟩
  · exact ⟨0x7F, _, rfl, by decide⟩

theorem match_first (pos len : Nat) (hp1 : 1 ≤ pos) (hp : pos < 4096)
    (hl : MINMATCH ≤ len) (hl32 : len < 2 ^ 32) :
    ∃ b t, write_match pos len [] = b :: t ∧ 128 ≤ b ∧ b < 256 := by
  by_cases hc : MSBi32 pos + MSBi32 len < 10
  · obtain ⟨hw, hlp, hk2, hk9⟩ := write_match_compact pos len hp1 (by omega) hl hl32 hc
    exact ⟨_, _, hw, by omega, by omega⟩
  · have hw := write_match_extended pos len hp1 hp hl hc
    refine ⟨_, _, hw, ?_, ?_⟩ <;> split_ifs <;> omega

theorem sub32_eq (cs m : Nat) (h1 : m ≤ cs) (h2 : cs < 2 ^ 32) :
    (cs + 2 ^ 32 - m % 2 ^ 32) % 2 ^ 32 = cs - m := by
  have : m % 2 ^ 32 = m := Nat.mod_eq_of_lt (by omega)
  rw [this]; omega

theorem step_literal (uc : Int → Nat) (wnd : Int) (nm : Nat) (h1 : 1 ≤ nm) (h32 : nm < 2 ^ 32)
    (pre post w : List Nat) (cs : Nat)
    (hcs : ((write_literal uc wnd [] nm).1).length ≤ cs) (hcs32 : cs < 2 ^ 32) :
    decompress_step (pre ++ ((write_literal uc wnd [] nm).1 ++ post)) ⟨pre.length, cs, w⟩ =
      some ⟨pre.length + ((write_literal uc wnd [] nm).1).length,
        cs - ((write_literal uc wnd [] nm).1).length,
        w ++ (List.range nm).map (fun k : Nat => uc (wnd - nm + k))⟩ := by
  have hd := decode_literal_code uc wnd nm h1 h32 pre post w
  obtain ⟨b, t, hbt, hb⟩ := lit_first uc wnd nm h1 h32
  unfold decompress_step
  simp only []
  have hr : rd8 (pre ++ ((write_literal uc wnd [] nm).1 ++ post)) pre.length = some b := by
    rw [hbt, List.cons_append, rd8_cons]
  rw [hr]
  simp only [bit7_clear b hb, ne_eq, not_true_eq_false, if_false, hd]
  rw [Nat.add_sub_cancel_left, sub32_eq _ _ hcs hcs32]

theorem step_match (pos len : Nat) (hp1 : 1 ≤ pos) (hp : pos < 4096)
    (hl : MINMATCH ≤ len) (hl32 : len < 2 ^ 32) (pre post w w1 : List Nat) (cs : Nat)
    (hpw : pos ≤ w.length) (hcm : copy_match len (w.length - pos) w = some w1)
    (hcs : (write_match pos len []).length ≤ cs) (hcs32 : cs < 2 ^ 32) :
    decompress_step (pre ++ (write_match pos len [] ++ post)) ⟨pre.length, cs, w⟩ =
      some ⟨pre.length + (write_match pos len []).length,
        cs - (write_match pos len []).length, w1⟩ := by
  have hd := decode_match_code pos len hp1 hp hl hl32 pre post w w1 hpw hcm
  obtain ⟨b, t, hbt, hb1, hb2⟩ := match_first pos len hp1 hp hl hl32
  unfold decompress_step
  simp only []
  have hr : rd8 (pre ++ (write_match pos len [] ++ post)) pre.length = some b := by
    rw [hbt, List.cons_append, rd8_cons]
  rw [hr]
  simp only [bit7_set b hb2 hb1, ne_eq, not_false_eq_true, if_true, hd]
  rw [Nat.add_sub_cancel_left, sub32_eq _ _ hcs hcs32]

theorem decompress_loop_done (cbuf : List Nat) (f : Nat) (s : DState) (h : s.csize = 0) :
    decompress_loop cbuf f s = some s := by
  cases f <;> simp [decompress_loop, h]

theorem decompress_trace_done (cbuf : List Nat) (f : Nat) (s : DState) (h : s.csize = 0) :
    decompress_trace cbuf f s = [s] := by
  cases f <;> simp [decompress_trace, h]

theorem decompress_loop_succ (cbuf : List Nat) (f : Nat) (s t : DState) (h : s.csize ≠ 0)
    (hs : decompress_step cbuf s = some t) :
    decompress_loop cbuf (f + 1) s = decompress_loop cbuf f t := by
  rw [decompress_loop, if_pos h, hs]

theorem decompress_trace_succ (cbuf : List Nat) (f : Nat) (s t : DState) (h : s.csize ≠ 0)
    (hs : decompress_step cbuf s = some t) :
    decompress_trace cbuf (f + 1) s = s :: decompress_trace cbuf f t := by
  rw [decompress_trace, if_pos h, hs]

/-- Running the loop of `decompress` over a stream of codes: after `k` iterations the codes
are consumed, the counter has decreased by their size without wrapping, and the bytes they
stand for are written. -/
theorem enc_run {s d : List Nat} (h : Enc s d) :
    ∀ (pre post : List Nat) (rem : Nat), s.length + rem < 2 ^ 32 →
      ∃ (k : Nat) (L : List DState), k ≤ s.length ∧
        (∀ f, decompress_loop (pre ++ (s ++ post)) (k + f) ⟨pre.length, s.length + rem, []⟩ =
          decompress_loop (pre ++ (s ++ post)) f ⟨pre.length + s.length, rem, d⟩) ∧
        (∀ f, decompress_trace (pre ++ (s ++ post)) (k + f) ⟨pre.length, s.length + rem, []⟩ =
          L ++ decompress_trace (pre ++ (s ++ post)) f ⟨pre.length + s.length, rem, d⟩) ∧
        (∀ st ∈ L, st.csize ≠ 0 ∧ pre.length ≤ st.cptr ∧
          st.csize + (st.cptr - pre.length) = s.length + rem) := by
  induction h with
  | nil =>
    intro pre post rem _
    exact ⟨0, [], le_refl _, by intro f; simp, by intro f; simp, by simp⟩
  | @lit s d uc wnd nm hprev h1 h32 ih =>
    intro pre post rem hrem
    obtain ⟨b, t, hbt, -⟩ := lit_first uc wnd nm h1 h32
    have hpos : 1 ≤ ((write_literal uc wnd [] nm).1).length := by rw [hbt]; simp
    rw [List.length_append] at hrem ⊢
    obtain ⟨k, L, hk, hloop, htrace, hL⟩ := ih pre ((write_literal uc wnd [] nm).1 ++ post)
      (((write_literal uc wnd [] nm).1).length + rem) (by omega)
    have hstep := step_literal uc wnd nm h1 h32 (pre ++ s) post d
      (((write_literal uc wnd [] nm).1).length + rem) (by omega) (by omega)
    simp only [List.append_assoc, List.length_append, Nat.add_sub_cancel_left] at hstep hloop htrace ⊢
    refine ⟨k + 1, L ++ [⟨pre.length + s.length, ((write_literal uc wnd [] nm).1).length + rem, d⟩],
      by omega, ?_, ?_, ?_⟩
    · intro f
      rw [show k + 1 + f = k + (f + 1) by omega, Nat.add_assoc s.length, hloop (f + 1),
        decompress_loop_succ _ _ _ _ (by simp only []; omega) hstep, Nat.add_assoc pre.length]
    · intro f
      rw [show k + 1 + f = k + (f + 1) by omega, Nat.add_assoc s.length, htrace (f + 1),
        decompress_trace_succ _ _ _ _ (by simp only []; omega) hstep, Nat.add_assoc pre.length]
      simp
    · intro st hst
      rcases List.mem_append.1 hst with h | h
      · have := hL st h; omega
      · rw [List.mem_singleton] at h; subst h; simp only []; omega
  | @mtch s d d1 pos len hprev hp1 hpd hp hl hl32 hcm ih =>
    intro pre post rem hrem
    obtain ⟨b, t, hbt, -⟩ := match_first pos len hp1 hp hl hl32
    have hpos : 1 ≤ (write_match pos len []).length := by rw [hbt]; simp
    rw [List.length_append] at hrem ⊢
    obtain ⟨k, L, hk, hloop, htrace, hL⟩ := ih pre (write_match pos len [] ++ post)
      ((write_match pos len []).length + rem) (by omega)
    have hstep := step_match pos len hp1 hp hl hl32 (pre ++ s) post d d1
      ((write_match pos len []).length + rem) hpd hcm (by omega) (by omega)
    simp only [List.append_assoc, List.length_append, Nat.add_sub_cancel_left] at hstep hloop htrace ⊢
    refine ⟨k + 1, L ++ [⟨pre.length + s.length, (write_match pos len []).length + rem, d⟩],
      by omega, ?_, ?_, ?_⟩
    · intro f
      rw [show k + 1 + f = k + (f + 1) by omega, Nat.add_assoc s.length, hloop (f + 1),
        decompress_loop_succ _ _ _ _ (by simp only []; omega) hstep, Nat.add_assoc pre.length]
    · intro f
      rw [show k + 1 + f = k + (f + 1) by omega, Nat.add_assoc s.length, htrace (f + 1),
        decompress_trace_succ _ _ _ _ (by simp only []; omega) hstep, Nat.add_assoc pre.length]
      simp
    · intro st hst
      rcases List.mem_append.1 hst with h | h
      · have := hL st h; omega
      · rw [List.mem_singleton] at h; subst h; simp only []; omega

/-! ## Match Code fields and the copy loop -/

/-- The match branch of `decompress` is the field extraction followed by the copy loop. -/
theorem decode_match_parse (cbuf : List Nat) (cptr : Nat) (w : List Nat) :
    decode_match cbuf cptr w =
      match parse_match cbuf cptr with
      | none => none
      | some (pos, len, cptr1) =>
        if pos ≤ w.length then (copy_match len (w.length - pos) w).map (fun w1 => (cptr1, w1))
        else none := by
  unfold decode_match parse_match
  cases h : rd16 cbuf cptr with
  | none => rfl
  | some v =>
    simp only []
    generalize ((v >>> 8) ||| (v <<< 8)) % 2 ^ 16 = info
    by_cases h1 : ((info >>> 11) &&& 0xF) < 11 - 1
    · simp only [h1, if_true]
    · simp only [h1, if_false]
      by_cases hp : info &&& 0xFFF ≤ w.length <;>
      split_ifs <;> cases rd32 cbuf (cptr + 2) <;> cases rd16 cbuf (cptr + 2) <;>
        cases rd8 cbuf (cptr + 2) <;> simp [hp]

/-- The field extraction of `decompress` inverts the match part of `write_code`. -/
theorem parse_match_code (pos len : Nat) (hp1 : 1 ≤ pos) (hp : pos < 4096)
    (hl : MINMATCH ≤ len) (hl32 : len < 2 ^ 32) (pre post : List Nat) :
    parse_match (pre ++ (write_match pos len [] ++ post)) pre.length =
      some (pos, len, pre.length + (write_match pos len []).length) := by
  by_cases hc : MSBi32 pos + MSBi32 len < 10
  · obtain ⟨hw, hlp, hk2, hk9⟩ := write_match_compact pos len hp1 (by omega) hl hl32 hc
    obtain ⟨f1, f2, f3⟩ := compact_fields (MSBi32 pos) len pos hk9 hk2 hlp
    rw [hw]
    unfold parse_match
    simp only [List.cons_append, List.nil_append, rd16_cons]
    rw [word_bytes _ (by omega), f1, if_pos (by omega), f2, f3]
    rfl
  · have hw := write_match_extended pos len hp1 hp hl hc
    rw [hw]
    unfold parse_match
    simp only [List.cons_append, List.nil_append, rd16_cons]
    by_cases h1 : len ≤ 0xFF
    · obtain ⟨f1, f2, f3⟩ := extended_fields 10 pos (Or.inl rfl) hp
      simp only [h1, if_true] at f1 f2 f3 ⊢
      rw [word_bytes _ (by omega), if_neg f1, f2, f3]
      have r : rd8 (pre ++ (32768 + 10 * 2048 + pos) / 256 :: (32768 + 10 * 2048 + pos) % 256
          :: (le8 len ++ post)) (pre.length + 2) = some len := by
        rw [rd8_pre]; simp [rd8, le8]; omega
      simp only [show (10 : Nat) ≠ 14 by decide, show (10 : Nat) ≠ 12 by decide, if_false, r,
        Option.map_some']
      simp [le8]
    · by_cases h2 : len ≤ 0xFFFF
      · obtain ⟨f1, f2, f3⟩ := extended_fields 12 pos (Or.inr (Or.inl rfl)) hp
        simp only [h1, h2, if_true, if_false] at f1 f2 f3 ⊢
        rw [word_bytes _ (by omega), if_neg f1, f2, f3]
        have r : rd16 (pre ++ (32768 + 12 * 2048 + pos) / 256 :: (32768 + 12 * 2048 + pos) % 256
            :: (le16 len ++ post)) (pre.length + 2) = some len := by
          rw [rd16_pre]; simp [rd16, le16]; omega
        simp only [show (12 : Nat) ≠ 14 by decide, if_true, if_false, r, Option.map_some']
        simp [le16]
      · obtain ⟨f1, f2, f3⟩ := extended_fields 14 pos (Or.inr (Or.inr rfl)) hp
        simp only [h1, h2, if_false] at f1 f2 f3 ⊢
        rw [word_bytes _ (by omega), if_neg f1, f2, f3]
        have r : rd32 (pre ++ (32768 + 14 * 2048 + pos) / 256 :: (32768 + 14 * 2048 + pos) % 256
            :: (le32 len ++ post)) (pre.length + 2) = some len := by
          rw [rd32_pre]; simp [rd32, le32]; omega
        simp only [if_true, r, Option.map_some']
        simp [le32]

theorem write_code_no_literal (uc : Int → Nat) (pos len : Nat) (wnd : Int) (c : List Nat) :
    (write_code uc pos len wnd c 0).1 = c ++ write_match pos len [] := by
  rw [write_code_eq, write_literal_zero, List.append_nil]


/-- The copy loop of line 249 appends `len` bytes, each equal to the byte `wptr` positions
into the output that is read for it, bytes appended earlier in the same copy included. -/
theorem copy_match_spec :
    ∀ (len wptr : Nat) (w : List Nat), wptr < w.length →
      ∃ ext : List Nat, copy_match len wptr w = some (w ++ ext) ∧ ext.length = len ∧
        ∀ k : Nat, k < len → (w ++ ext)[w.length + k]? = (w ++ ext)[wptr + k]? := by
  intro len
  induction len with
  | zero => intro wptr w _; exact ⟨[], by simp [copy_match]⟩
  | succ l ih =>
    intro wptr w h
    obtain ⟨ext, he, hl, hk⟩ := ih (wptr + 1) (w ++ [w[wptr]]) (by simp; omega)
    refine ⟨w[wptr] :: ext, ?_, by simp [hl], ?_⟩
    · rw [copy_match, List.getElem?_eq_getElem h]
      simp only []
      rw [he]; simp
    · intro k hk1
      have e : w ++ w[wptr] :: ext = (w ++ [w[wptr]]) ++ ext := by simp
      rcases Nat.eq_zero_or_pos k with rfl | hpos
      · rw [Nat.add_zero, Nat.add_zero, List.getElem?_append_right (le_refl _),
          List.getElem?_append_left h]
        simp [List.getElem?_eq_getElem h]
      · have := hk (k - 1) (by omega)
        rw [List.length_append, List.length_singleton] at this
        rw [e, show w.length + k = w.length + 1 + (k - 1) by omega,
          show wptr + k = wptr + 1 + (k - 1) by omega]
        exact this

theorem decompress_step_eq (cbuf : List Nat) (s : DState) (b : Nat)
    (hb : rd8 cbuf s.cptr = some b) :
    decompress_step cbuf s =
      (if b &&& 0x80 ≠ 0 then decode_match cbuf s.cptr s.wnd
        else decode_literal cbuf s.cptr s.wnd).map
        (fun r => ⟨r.1, (s.csize + 2 ^ 32 - (r.1 - s.cptr) % 2 ^ 32) % 2 ^ 32, r.2⟩) := by
  unfold decompress_step
  rw [hb]
  simp only []
  cases (if b &&& 0x80 ≠ 0 then decode_match cbuf s.cptr s.wnd
    else decode_literal cbuf s.cptr s.wnd) with
  | none => rfl
  | some r => obtain ⟨a, c⟩ := r; rfl

theorem rd16_two (a b : Nat) (t : List Nat) : rd16 (a :: b :: t) 0 = some (a + 256 * b) := by
  simp [rd16]

/-- Field extraction on an extended word: the field value `e` or `e + 1` selects the width of
the length. -/
theorem parse_match_extended (a b : Nat) (rest : List Nat) (ha : a < 256) (hb : b < 256)
    (e : Nat) (he : e = 10 ∨ e = 12 ∨ e = 14)
    (hf : (256 * a + b) / 2048 % 16 = e ∨ (256 * a + b) / 2048 % 16 = e + 1) :
    parse_match (a :: b :: rest) 0 =
      if e = 14 then (rd32 (a :: b :: rest) 2).map (fun len => ((256 * a + b) % 4096, len, 6))
      else if e = 12 then
        (rd16 (a :: b :: rest) 2).map (fun len => ((256 * a + b) % 4096, len, 4))
      else (rd8 (a :: b :: rest) 2).map (fun len => ((256 * a + b) % 4096, len, 3)) := by
  unfold parse_match
  rw [rd16_two]
  simp only []
  rw [rd16_swap a b ha hb]
  simp only [and_0xF, and_0xFFF, Nat.shiftRight_eq_div_pow]
  have h2 : (256 * a + b) / 2 ^ 11 % 16 = (256 * a + b) / 2048 % 16 := by norm_num
  rw [h2]
  have hge : ¬ (256 * a + b) / 2048 % 16 < 11 - 1 := by
    rcases he with rfl | rfl | rfl <;> omega
  rw [if_neg hge]
  have hm : ((256 * a + b) / 2048 % 16) &&& 0xE = e := by
    rcases hf with h | h <;> rw [h] <;> rcases he with rfl | rfl | rfl <;> rfl
  simp only [hm]

theorem bit3_clear : ∀ b : Nat, b < 256 → b &&& 8 = 0 → b / 8 % 2 = 0 ∧ b ||| 8 = b + 8 := by
  decide!


/-- Setting bit 11 of an extended word (bit 3 of its first byte) adds 2048 to the distance that
`decompress` extracts and changes neither the length nor the number of bytes consumed. -/
theorem parse_match_flag (b0 b1 : Nat) (rest : List Nat) (h0 : b0 < 256) (h1 : b1 < 256)
    (hclr : b0 &&& 8 = 0) (hext : 10 ≤ ((256 * b0 + b1) >>> 11) &&& 0xF) :
    parse_match ((b0 ||| 8) :: b1 :: rest) 0 =
      (parse_match (b0 :: b1 :: rest) 0).map (fun r => (r.1 + 2048, r.2.1, r.2.2)) := by
  obtain ⟨hb, hor⟩ := bit3_clear b0 h0 hclr
  rw [and_0xF, Nat.shiftRight_eq_div_pow] at hext
  have hext2 : 10 ≤ (256 * b0 + b1) / 2048 % 16 := by
    have : (256 * b0 + b1) / 2 ^ 11 % 16 = (256 * b0 + b1) / 2048 % 16 := by norm_num
    omega
  have he : ∃ e, (e = 10 ∨ e = 12 ∨ e = 14) ∧ (256 * b0 + b1) / 2048 % 16 = e :=
    ⟨(256 * b0 + b1) / 2048 % 16, by omega, rfl⟩
  obtain ⟨e, he1, he2⟩ := he
  rw [hor, parse_match_extended b0 b1 rest h0 h1 e he1 (Or.inl he2),
    parse_match_extended (b0 + 8) b1 rest (by omega) h1 e he1 (Or.inr (by omega))]
  have hpos : (256 * (b0 + 8) + b1) % 4096 = (256 * b0 + b1) % 4096 + 2048 := by omega
  rw [hpos]
  have r8 : rd8 ((b0 + 8) :: b1 :: rest) 2 = rd8 (b0 :: b1 :: rest) 2 := by simp [rd8]
  have r16 : rd16 ((b0 + 8) :: b1 :: rest) 2 = rd16 (b0 :: b1 :: rest) 2 := by simp [rd16]
  have r32 : rd32 ((b0 + 8) :: b1 :: rest) 2 = rd32 (b0 :: b1 :: rest) 2 := by simp [rd32]
  rw [r8, r16, r32]
  split_ifs <;> simp [Option.map_map, Function.comp_def]


theorem bit3_set_iff : ∀ b : Nat, b < 256 → (b &&& 8 ≠ 0 ↔ b / 8 % 2 = 1) := by
  decide!

theorem MSBi32_eq_11 (d : Nat) (hd1 : 1 ≤ d) (hd : d < 4096) : MSBi32 d = 11 ↔ 2048 ≤ d := by
  rw [MSBi32_eq_log2 d hd1 (by omega)]
  have hn : d ≠ 0 := by omega
  have h1 : 11 ≤ Nat.log2 d ↔ 2 ^ 11 ≤ d := Nat.le_log2 hn
  have h2 : Nat.log2 d < 12 ↔ d < 2 ^ 12 := Nat.log2_lt hn
  have h3 : Nat.log2 d < 12 := h2.2 (by omega)
  constructor
  · intro h; have := h1.1 (by omega); omega
  · intro h; have := h1.2 (by omega); omega

/-- In the extended Match Code that `write_match` writes, bit 11 of the word (bit 3 of the
first byte) is set exactly when the distance is at least 2048. -/
theorem write_match_flag (pos len : Nat) (hp1 : 1 ≤ pos) (hp : pos < 4096)
    (hl : MINMATCH ≤ len) (hc : ¬ MSBi32 pos + MSBi32 len < 10) :
    ∃ (b0 b1 : Nat) (t : List Nat), write_match pos len [] = b0 :: b1 :: t ∧ b0 < 256 ∧
      (b0 &&& 8 ≠ 0 ↔ 2048 ≤ pos) := by
  rw [write_match_extended pos len hp1 hp hl hc]
  have he : ∃ e, (e = 10 ∨ e = 12 ∨ e = 14) ∧
      (if len ≤ 0xFF then 10 else if len ≤ 0xFFFF then 12 else 14) = e := by
    split_ifs
    · exact ⟨10, Or.inl rfl, rfl⟩
    · exact ⟨12, Or.inr (Or.inl rfl), rfl⟩
    · exact ⟨14, Or.inr (Or.inr rfl), rfl⟩
  obtain ⟨e, he1, he2⟩ := he
  rw [he2]
  have hb : (0x8000 + e * 2048 + pos) / 256 < 256 := by rcases he1 with rfl | rfl | rfl <;> omega
  refine ⟨_, _, _, rfl, hb, ?_⟩
  rw [bit3_set_iff _ hb]
  rcases he1 with rfl | rfl | rfl <;> omega

/-! ## Round trip through the compressed file -/

theorem rd32_le32 (v : Nat) (h : v < 2 ^ 32) (a post : List Nat) (ha : a.length = 4) :
    rd32 (a ++ (le32 v ++ post)) 4 = some v := by
  have := rd32_pre a (le32 v ++ post) 0
  rw [ha] at this
  rw [this]
  simp [rd32, le32]
  omega

theorem lzss_compress_eq (uc : Int → Nat) (n : Nat) (hC : (compress uc n).length < 2 ^ 32) :
    lzss_compress uc n =
      (le32 n ++ le32 (compress uc n).length) ++ (compress uc n ++ []) := by
  unfold lzss_compress
  simp only []
  rw [Nat.mod_eq_of_lt hC, List.take_length]
  simp

theorem lzss_compress_length (uc : Int → Nat) (n : Nat) (hC : (compress uc n).length < 2 ^ 32) :
    (lzss_compress uc n).length = 8 + (compress uc n).length := by
  rw [lzss_compress_eq uc n hC]
  simp only [le32, List.length_append, List.length_cons, List.length_nil]
  omega

theorem decompress_init_lzss (uc : Int → Nat) (n : Nat) (hC : (compress uc n).length < 2 ^ 32) :
    decompress_init (lzss_compress uc n) = some ⟨8, (compress uc n).length, []⟩ := by
  unfold decompress_init
  have : lzss_compress uc n = le32 n ++ (le32 (compress uc n).length ++ compress uc n) := by
    rw [lzss_compress_eq uc n hC]; simp
  rw [this, rd32_le32 _ hC _ _ (by simp [le32])]
  rfl

/-- The run of `decompress` over the file written by `lzss_compress`. -/
theorem decompress_run (uc : Int → Nat) (n : Nat) (h32 : n < 2 ^ 32)
    (hC : (compress uc n).length < 2 ^ 32) :
    decompress_loop (lzss_compress uc n) (lzss_compress uc n).length
        ⟨8, (compress uc n).length, []⟩ = some ⟨8 + (compress uc n).length, 0, bytes uc n⟩ ∧
    ∃ L : List DState,
      decompress_trace (lzss_compress uc n) (lzss_compress uc n).length
        ⟨8, (compress uc n).length, []⟩ = L ++ [⟨8 + (compress uc n).length, 0, bytes uc n⟩] ∧
      ∀ st ∈ L, st.csize ≠ 0 ∧ 8 ≤ st.cptr ∧ st.csize + (st.cptr - 8) = (compress uc n).length := by
  have henc := compress_enc uc n h32
  obtain ⟨k, L, hk, hloop, htrace, hL⟩ :=
    enc_run henc (le32 n ++ le32 (compress uc n).length) [] 0 (by omega)
  have hlen := lzss_compress_length uc n hC
  rw [← lzss_compress_eq uc n hC] at hloop htrace
  have h8 : (le32 n ++ le32 (compress uc n).length).length = 8 := by simp [le32]
  rw [h8] at hloop htrace hL
  simp only [Nat.add_zero] at hloop htrace hL
  have hf : (lzss_compress uc n).length = k + ((lzss_compress uc n).length - k) := by omega
  refine ⟨?_, L, ?_, hL⟩
  · rw [hf, hloop, decompress_loop_done _ _ _ rfl]
  · rw [hf, htrace, decompress_trace_done _ _ _ rfl]

theorem bytes_mem (B : List Nat) : bytes (mem B) B.length = B := by
  apply List.ext_getElem?
  intro k
  by_cases h : k < B.length
  · rw [bytes_get _ _ _ h]
    simp [mem, List.getD, List.getElem?_eq_getElem h]
  · rw [List.getElem?_eq_none (by rw [bytes_length]; omega), List.getElem?_eq_none (by omega)]

theorem decompress_lzss (uc : Int → Nat) (n : Nat) (h32 : n < 2 ^ 32)
    (hC : (compress uc n).length < 2 ^ 32) :
    decompress (lzss_compress uc n) = some (bytes uc n) := by
  unfold decompress
  rw [decompress_init_lzss uc n hC]
  simp only []
  rw [(decompress_run uc n h32 hC).1]
  rfl

/-- In the window: while the cursor index is at most `WINDOWSIZE`, `start` is `uc - 1`. -/
theorem compress_iter_start (uc : Int → Nat) (n : Nat) :
    ∀ k, (compress_iter uc n k).i ≤ WINDOWSIZE → (compress_iter uc n k).start = -1 := by
  intro k
  induction k with
  | zero => intro _; rfl
  | succ k ih =>
    rw [compress_iter, compress_next]
    split
    · intro h
      rw [compress_step_i] at h
      have h1 := ih (by omega)
      have h2 : eff_start (compress_iter uc n k) = -1 := by
        rw [eff_start, if_neg (by omega), h1]
      rw [compress_step_unfold]
      split <;> exact h2
    · exact ih

/-! ## Compress driver: calls of `write_code` and the sliding window -/

theorem run_calls_append (uc : Int → Nat) (a b : List (Nat × Nat × Int × Nat)) (c : List Nat) :
    run_calls uc (a ++ b) c = run_calls uc b (run_calls uc a c) := by
  simp [run_calls, List.foldl_append]

/-- The calls logged for the first `k` iterations produce the output written so far and stand
for the input bytes before the pending literals. -/
theorem write_calls_inv (uc : Int → Nat) (n : Nat) (h32 : n < 2 ^ 32) :
    ∀ k, (compress_iter uc n k).cptr = run_calls uc (write_calls uc n k) [] ∧
      ((write_calls uc n k).map call_bytes).sum + (compress_iter uc n k).nm =
        (compress_iter uc n k).i := by
  intro k
  induction k with
  | zero => exact ⟨rfl, rfl⟩
  | succ k ih =>
    obtain ⟨ih1, ih2⟩ := ih
    have hnm := (compress_iter_inv uc n h32 k).nm_le
    rw [compress_iter, compress_next, write_calls]
    by_cases hi : (compress_iter uc n k).i < n
    · rw [if_pos hi, compress_step_unfold]
      by_cases hm : MINMATCH ≤ (find_longest_match uc (eff_start (compress_iter uc n k)) n
          (compress_iter uc n k).wnd).2
      · rw [if_pos hm, if_pos ⟨hi, hm⟩]
        constructor
        · rw [run_calls_append, ← ih1]; rfl
        · simp only [List.map_append, List.sum_append, List.map_cons, List.map_nil,
            List.sum_cons, List.sum_nil, call_bytes, if_pos hm, write_code_eq]
          omega
      · rw [if_neg hm, if_neg (fun h => hm h.2)]
        exact ⟨ih1, by simp only []; omega⟩
    · rw [if_neg hi, if_neg (fun h => hi h.1)]
      exact ⟨ih1, ih2⟩

theorem all_write_calls_spec (uc : Int → Nat) (n : Nat) (h32 : n < 2 ^ 32) :
    compress uc n = run_calls uc (all_write_calls uc n) [] ∧
    ((all_write_calls uc n).map call_bytes).sum = n := by
  obtain ⟨h1, h2⟩ := write_calls_inv uc n h32 n
  have hi := compress_final_i uc n h32
  have hpend := (compress_iter_inv uc n h32 n).pend
  rw [compress_eq, all_write_calls]
  by_cases hnm : (compress_iter uc n n).nm ≠ 0
  · rw [if_pos hnm, if_pos hnm, run_calls_append, ← h1]
    refine ⟨rfl, ?_⟩
    have hl := hpend hnm
    simp only [List.map_append, List.sum_append, List.map_cons, List.map_nil,
      List.sum_cons, List.sum_nil, call_bytes, if_neg (Nat.not_le.2 hl)]
    omega
  · rw [if_neg hnm, if_neg hnm, List.append_nil, ← h1]
    refine ⟨rfl, ?_⟩
    omega

/-- Span `wnd - start` passed to `find_longest_match` in the iteration that begins in `s`. -/
theorem span_step (uc : Int → Nat) (n : Nat) (s : CState)
    (h : WINDOWSIZE < (compress_step uc n s).i) :
    (compress_step uc n s).wnd - eff_start (compress_step uc n s) = s.wnd - eff_start s := by
  have hi := compress_step_i uc n s
  rw [hi] at h
  rw [compress_step_unfold]
  generalize find_longest_match uc (eff_start s) n s.wnd = r at h ⊢
  generalize eff_start s = es
  split <;> simp only [eff_start, gt_iff_lt, if_pos h] <;> omega

theorem compress_iter_mono (uc : Int → Nat) (n : Nat) (k : Nat) :
    (compress_iter uc n k).i ≤ (compress_iter uc n (k + 1)).i := by
  rw [compress_iter, compress_next]
  split
  · rw [compress_step_i]; omega
  · exact le_refl _

theorem span_const (uc : Int → Nat) (n : Nat) (k : Nat)
    (h : WINDOWSIZE < (compress_iter uc n (k + 1)).i) :
    ∀ m, 1 ≤ m →
      WINDOWSIZE < (compress_iter uc n (k + m)).i ∧
      (compress_iter uc n (k + m)).wnd - eff_start (compress_iter uc n (k + m)) =
        (compress_iter uc n k).wnd - eff_start (compress_iter uc n k) := by
  intro m
  induction m with
  | zero => intro h0; omega
  | succ m ih =>
    intro _
    rcases Nat.eq_zero_or_pos m with rfl | hpos
    · refine ⟨h, ?_⟩
      have hh := h
      rw [compress_iter, compress_next] at hh ⊢
      split
      · rename_i hi; rw [if_pos hi] at hh; exact span_step uc n _ hh
      · rfl
    · obtain ⟨h1, h2⟩ := ih hpos
      have hmono := compress_iter_mono uc n (k + m)
      rw [← Nat.add_assoc]
      refine ⟨by omega, ?_⟩
      rw [← h2]
      have hh : WINDOWSIZE < (compress_iter uc n (k + m + 1)).i := by omega
      rw [compress_iter, compress_next] at hh ⊢
      split
      · rename_i hi; rw [if_pos hi] at hh; exact span_step uc n _ hh
      · rfl

/-! ## An input whose compressed form exceeds `n + n/8 + 1` bytes -/

theorem isRun_two (uc : Int → Nat) (endp wnd : Int) (d m : Nat) (hm : 2 ≤ m)
    (h : IsRun uc endp wnd d m) :
    wnd + 2 ≤ endp ∧ uc (wnd - d) = uc wnd ∧ uc (wnd - d + 1) = uc (wnd + 1) := by
  obtain ⟨h1, h2⟩ := h
  have a := h2 0 (by omega)
  have b := h2 1 (by omega)
  simp only [Nat.cast_zero, add_zero, Nat.cast_one] at a b
  exact ⟨by omega, a, b⟩

theorem find_longest_match_eq_none (uc : Int → Nat) (start endp wnd : Int) (hw : wnd < endp)
    (h : ∀ d : Nat, 1 ≤ d → d ≤ ncand start wnd →
      ¬ (wnd + 2 ≤ endp ∧ uc (wnd - d) = uc wnd ∧ uc (wnd - d + 1) = uc (wnd + 1))) :
    find_longest_match uc start endp wnd = (0, 1) := by
  obtain ⟨-, -, h3⟩ := find_longest_match_spec uc start endp wnd hw
  rcases h3 with ⟨a, b⟩ | ⟨a, b, c, d, -⟩
  · exact Prod.ext a b
  · exact absurd (isRun_two uc endp wnd _ _ c d) (h _ a b)

theorem find_longest_match_eq_unique (uc : Int → Nat) (start endp wnd : Int) (hw : wnd < endp)
    (p0 L : Nat) (hp1 : 1 ≤ p0) (hp2 : p0 ≤ ncand start wnd) (hL : 2 ≤ L)
    (hrun : IsRun uc endp wnd p0 L) (hstop : ¬ IsRun uc endp wnd p0 (L + 1))
    (h : ∀ d : Nat, 1 ≤ d → d ≤ ncand start wnd → d ≠ p0 →
      ¬ (wnd + 2 ≤ endp ∧ uc (wnd - d) = uc wnd ∧ uc (wnd - d + 1) = uc (wnd + 1))) :
    find_longest_match uc start endp wnd = (p0, L) := by
  obtain ⟨-, h2, h3⟩ := find_longest_match_spec uc start endp wnd hw
  have hLle := h2 p0 L hp1 hp2 hrun
  rcases h3 with ⟨a, b⟩ | ⟨a, b, c, d, -⟩
  · omega
  · have hp : (find_longest_match uc start endp wnd).1 = p0 := by
      by_contra hne
      exact h _ a b hne (isRun_two uc endp wnd _ _ c d)
    rw [hp] at d
    have hle : (find_longest_match uc start endp wnd).2 ≤ L := by
      by_contra hgt
      apply hstop
      exact ⟨by have := d.1; omega, fun j hj => d.2 j (by omega)⟩
    exact Prod.ext hp (by omega)

theorem cex_lo (i : Nat) (h : i < 516) : cex_byte i = if i % 3 = 2 then 254 else i / 3 := by
  unfold cex_byte; rw [if_pos h]

theorem cex_hi (i : Nat) (h : 516 ≤ i) :
    cex_byte i = if (i - 516) % 4 = 0 then 255 else if (i - 516) % 4 = 3 then 254
      else (i - 516) / 4 + 1 := by
  unfold cex_byte; rw [if_neg (by omega)]

/-- In the first 516 bytes no two-byte sequence occurs twice. -/
theorem cex_phase1 (i p : Nat) (hp : p < i) (hi : i < 516) :
    ¬ (cex_byte p = cex_byte i ∧ cex_byte (p + 1) = cex_byte (i + 1)) := by
  rw [cex_lo p (by omega), cex_lo i hi, cex_lo (p + 1) (by omega)]
  rcases Nat.lt_or_ge (i + 1) 516 with h | h
  · rw [cex_lo (i + 1) h]
    split_ifs <;> omega
  · have : i + 1 = 516 := by omega
    rw [this, show cex_byte 516 = 255 from rfl]
    split_ifs <;> omega

/-- At a separator byte `255` of the second part no earlier position starts the same two
bytes. -/
theorem cex_separator (j p : Nat) (hj : j < 128) (hp : p < 516 + 4 * j) :
    ¬ (cex_byte p = cex_byte (516 + 4 * j) ∧ cex_byte (p + 1) = cex_byte (516 + 4 * j + 1)) := by
  rw [cex_hi (516 + 4 * j) (by omega), cex_hi (516 + 4 * j + 1) (by omega),
    if_pos (by omega), if_neg (by omega), if_neg (by omega)]
  rcases Nat.lt_or_ge p 516 with h | h
  · rw [cex_lo p h]
    split_ifs <;> omega
  · rw [cex_hi p h, cex_hi (p + 1) (by omega)]
    split_ifs <;> omega

/-- At the group `j + 1, j + 1, 254` of the second part the only earlier position that starts
the same two bytes is the group of the first part. -/
theorem cex_group (j p : Nat) (hj : j < 128) (hp : p < 517 + 4 * j) (hne : p ≠ 3 * j + 3) :
    ¬ (cex_byte p = cex_byte (517 + 4 * j) ∧ cex_byte (p + 1) = cex_byte (517 + 4 * j + 1)) := by
  rw [cex_hi (517 + 4 * j) (by omega), cex_hi (517 + 4 * j + 1) (by omega),
    if_neg (by omega), if_neg (by omega), if_neg (by omega), if_neg (by omega)]
  rcases Nat.lt_or_ge (p + 1) 516 with h | h
  · rw [cex_lo p (by omega), cex_lo (p + 1) h]
    split_ifs <;> omega
  · rcases Nat.lt_or_ge p 516 with h1 | h1
    · rw [cex_lo p h1]
      split_ifs <;> omega
    · rw [cex_hi p h1, cex_hi (p + 1) (by omega)]
      split_ifs <;> omega

/-- The group of the second part repeats the group of the first part for exactly 3 bytes. -/
theorem cex_group_run (j : Nat) (hj : j < 128) :
    IsRun cex_mem 1028 ((517 + 4 * j : Nat) : Int) (514 + j) 3 ∧
    ¬ IsRun cex_mem 1028 ((517 + 4 * j : Nat) : Int) (514 + j) (3 + 1) := by
  constructor
  · refine ⟨by push_cast; omega, ?_⟩
    intro q hq
    unfold cex_mem
    rw [show (((517 + 4 * j : Nat) : Int) - ((514 + j : Nat) : Int) + (q : Int)).toNat = 3 * j + 3 + q
        by omega,
      show (((517 + 4 * j : Nat) : Int) + (q : Int)).toNat = 517 + 4 * j + q by omega,
      cex_lo _ (by omega), cex_hi _ (by omega)]
    split_ifs <;> omega
  · intro ⟨h1, h2⟩
    have hj1 : j < 127 := by push_cast at h1; omega
    have := h2 3 (by omega)
    unfold cex_mem at this
    rw [show (((517 + 4 * j : Nat) : Int) - ((514 + j : Nat) : Int) + ((3 : Nat) : Int)).toNat
        = 3 * j + 6 by omega,
      show (((517 + 4 * j : Nat) : Int) + ((3 : Nat) : Int)).toNat = 520 + 4 * j by omega,
      cex_lo _ (by omega), cex_hi _ (by omega)] at this
    split_ifs at this <;> omega


theorem cex_flm_none (i : Nat) (hi : i < 1028)
    (h : ∀ p : Nat, p < i → ¬ (cex_byte p = cex_byte i ∧ cex_byte (p + 1) = cex_byte (i + 1))) :
    find_longest_match cex_mem (-1) (1028 : Nat) (i : Int) = (0, 1) := by
  apply find_longest_match_eq_none _ _ _ _ (by exact_mod_cast hi)
  rintro d hd1 hd2 ⟨-, h2, h3⟩
  unfold ncand at hd2
  apply h (i - d) (by omega)
  unfold cex_mem at h2 h3
  rw [show ((i : Int) - (d : Int)).toNat = i - d by omega, Int.toNat_ofNat] at h2
  rw [show ((i : Int) - (d : Int) + 1).toNat = i - d + 1 by omega,
    show ((i : Int) + 1).toNat = i + 1 by omega] at h3
  exact ⟨h2, h3⟩

theorem cex_flm_group (j : Nat) (hj : j < 128) :
    find_longest_match cex_mem (-1) (1028 : Nat) ((517 + 4 * j : Nat) : Int) = (514 + j, 3) := by
  obtain ⟨hr, hs⟩ := cex_group_run j hj
  apply find_longest_match_eq_unique _ _ _ _ (by push_cast; omega) (514 + j) 3 (by omega)
    (by unfold ncand; omega) (by omega) hr hs
  rintro d hd1 hd2 hne ⟨-, h2, h3⟩
  unfold ncand at hd2
  apply cex_group j (517 + 4 * j - d) hj (by omega) (by omega)
  unfold cex_mem at h2 h3
  rw [show (((517 + 4 * j : Nat) : Int) - (d : Int)).toNat = 517 + 4 * j - d by omega,
    Int.toNat_ofNat] at h2
  rw [show (((517 + 4 * j : Nat) : Int) - (d : Int) + 1).toNat = 517 + 4 * j - d + 1 by omega,
    show (((517 + 4 * j : Nat) : Int) + 1).toNat = 517 + 4 * j + 1 by omega] at h3
  exact ⟨h2, h3⟩

theorem cex_step (s : CState) (hw : s.wnd = s.i) (hs : s.start = -1) (hi : s.i < 1028) :
    compress_step cex_mem ((1028 : Nat) : Int) s =
      if (find_longest_match cex_mem (-1) (1028 : Nat) (s.i : Int)).2 ≥ MINMATCH then
        ⟨s.i + (find_longest_match cex_mem (-1) (1028 : Nat) (s.i : Int)).2, 0,
         (find_longest_match cex_mem (-1) (1028 : Nat) (s.i : Int)).2,
         (find_longest_match cex_mem (-1) (1028 : Nat) (s.i : Int)).1,
         s.wnd + (find_longest_match cex_mem (-1) (1028 : Nat) (s.i : Int)).2, -1,
         s.cptr ++ (write_literal cex_mem s.wnd [] s.nm).1 ++
           write_match (find_longest_match cex_mem (-1) (1028 : Nat) (s.i : Int)).1
             (find_longest_match cex_mem (-1) (1028 : Nat) (s.i : Int)).2 []⟩
      else
        ⟨s.i + (find_longest_match cex_mem (-1) (1028 : Nat) (s.i : Int)).2,
         s.nm + (find_longest_match cex_mem (-1) (1028 : Nat) (s.i : Int)).2,
         (find_longest_match cex_mem (-1) (1028 : Nat) (s.i : Int)).2,
         (find_longest_match cex_mem (-1) (1028 : Nat) (s.i : Int)).1,
         s.wnd + (find_longest_match cex_mem (-1) (1028 : Nat) (s.i : Int)).2, -1, s.cptr⟩ := by
  have he : eff_start s = -1 := by
    have hW : WINDOWSIZE = 4096 := rfl
    rw [eff_start, if_neg (by omega), hs]
  rw [compress_step_unfold, he, write_code_eq, hw]

theorem cex_phase1_iter : ∀ k : Nat, 1 ≤ k → k ≤ 516 →
    compress_iter cex_mem 1028 k = ⟨k, k, 1, 0, k, -1, []⟩ := by
  intro k
  induction k with
  | zero => intro h; omega
  | succ k ih =>
    intro _ hk
    rw [compress_iter, compress_next]
    rcases Nat.eq_zero_or_pos k with rfl | hpos
    · rfl
    · rw [ih hpos (by omega)]
      simp only []
      rw [if_pos (by omega), cex_step _ rfl rfl (by simp only []; omega)]
      simp only []
      rw [cex_flm_none k (by omega) (fun p hp => cex_phase1 k p hp (by omega))]
      simp [MINMATCH]


theorem cex_match_length (j : Nat) (hj : j < 128) : (write_match (514 + j) 3 []).length = 3 := by
  have h9 : MSBi32 (514 + j) = 9 := by
    rw [MSBi32_eq_log2 _ (by omega) (by omega)]
    have h1 : 9 ≤ Nat.log2 (514 + j) := (Nat.le_log2 (by omega)).2 (by norm_num; omega)
    have h2 : Nat.log2 (514 + j) < 10 := (Nat.log2_lt (by omega)).2 (by norm_num; omega)
    omega
  have h1 : MSBi32 3 = 1 := by decide
  rw [write_match_extended (514 + j) 3 (by omega) (by omega) (by decide) (by rw [h9, h1]; decide)]
  simp [le8]

theorem cex_literal_length (wnd : Int) (nm : Nat) (h : nm = 1 ∨ nm = 517) :
    ((write_literal cex_mem wnd [] nm).1).length = if nm = 1 then 2 else 520 := by
  rcases h with rfl | rfl
  · rw [write_literal_form _ _ _ (by decide) (by decide)]; simp [lit_header]
  · rw [write_literal_form _ _ _ (by decide) (by decide)]; simp [lit_header]

theorem cex_phase2_iter : ∀ j : Nat, j ≤ 128 →
    CexInv j (compress_iter cex_mem 1028 (516 + 2 * j)) := by
  intro j
  induction j with
  | zero =>
    intro _
    rw [Nat.mul_zero, Nat.add_zero, cex_phase1_iter 516 (by decide) (le_refl _)]
    exact ⟨rfl, rfl, rfl, rfl, rfl⟩
  | succ j ih =>
    intro hj
    obtain ⟨h1, h2, h3, h4, h5⟩ := ih (by omega)
    have hM : MINMATCH = 3 := rfl
    have e1 : compress_iter cex_mem 1028 (516 + 2 * j + 1) =
        ⟨517 + 4 * j, (compress_iter cex_mem 1028 (516 + 2 * j)).nm + 1, 1, 0,
          ((517 + 4 * j : Nat) : Int), -1, (compress_iter cex_mem 1028 (516 + 2 * j)).cptr⟩ := by
      rw [compress_iter, compress_next, if_pos (by omega),
        cex_step _ (by rw [h2, h1]) h3 (by omega), h1,
        cex_flm_none (516 + 4 * j) (by omega) (fun p hp => cex_separator j p (by omega) hp)]
      simp only [hM, ge_iff_le, show ¬ (3 ≤ 1) by decide, if_false]
      rw [h2]
      congr 1
      · omega
      · push_cast; omega
    have e2 : compress_iter cex_mem 1028 (516 + 2 * j + 1 + 1) =
        ⟨517 + 4 * j + 3, 0, 3, 514 + j, ((517 + 4 * j : Nat) : Int) + (3 : Nat), -1,
          (compress_iter cex_mem 1028 (516 + 2 * j)).cptr ++
          (write_literal cex_mem ((517 + 4 * j : Nat) : Int) []
            ((compress_iter cex_mem 1028 (516 + 2 * j)).nm + 1)).1 ++
          write_match (514 + j) 3 []⟩ := by
      rw [compress_iter, compress_next, e1, if_pos (by simp only []; omega),
        cex_step _ rfl rfl (by simp only []; omega)]
      simp only []
      rw [cex_flm_group j (by omega)]
      simp only [hM, ge_iff_le, le_refl, if_true]
    rw [show 516 + 2 * (j + 1) = (516 + 2 * j + 1) + 1 by omega, e2]
    refine ⟨by simp only []; omega, by simp only []; push_cast; ring, rfl, by simp, ?_⟩
    simp only []
    rw [List.length_append, List.length_append, cex_match_length j (by omega),
      cex_literal_length _ _ (by rw [h4]; split <;> omega), h5, h4]
    rcases Nat.eq_zero_or_pos j with rfl | hpos
    · simp
    · have : j ≠ 0 := by omega
      simp [this]; omega

/-- Output size of `compress` on the 1028 bytes `cex_mem`. -/
theorem cex_compress_length : (compress cex_mem 1028).length = 1158 := by
  obtain ⟨h1, -, -, h4, h5⟩ := cex_phase2_iter 128 (le_refl _)
  have hstuck := compress_iter_stuck cex_mem 1028 (516 + 2 * 128) (by rw [h1]; omega) 256
  rw [show 516 + 2 * 128 + 256 = 1028 by rfl] at hstuck
  rw [compress_eq, hstuck, h4]
  simp only [show (128 : Nat) ≠ 0 by decide, if_false, ne_eq, not_true_eq_false]
  rw [h5]
  rfl

/-! ## Claims -/

/-- C1 (round trip): for every byte sequence `B` whose size, and whose compressed size, fit the
two 32-bit fields of the header, `decompress` applied to the 8-byte header followed by the
bytes written by `compress` reconstructs exactly `B`. -/
theorem C1_round_trip (B : List Nat) (hB : B.length < 2 ^ 32)
    (hC : (compress (mem B) B.length).length < 2 ^ 32) :
    decompress (lzss_compress (mem B) B.length) = some B := by
  rw [decompress_lzss (mem B) B.length hB hC, bytes_mem]

theorem C1_round_trip_witness :
    [65, 66, 67, 65, 66, 67, 65, 66, 67, 65, 66, 67].length < 2 ^ 32 ∧
    (compress (mem [65, 66, 67, 65, 66, 67, 65, 66, 67, 65, 66, 67]) 12).length < 2 ^ 32 ∧
    decompress (lzss_compress (mem [65, 66, 67, 65, 66, 67, 65, 66, 67, 65, 66, 67])
      [65, 66, 67, 65, 66, 67, 65, 66, 67, 65, 66, 67].length) =
      some [65, 66, 67, 65, 66, 67, 65, 66, 67, 65, 66, 67] :=
  ⟨by decide, by decide,
    C1_round_trip [65, 66, 67, 65, 66, 67, 65, 66, 67, 65, 66, 67] (by decide) (by decide)⟩


/-- C2 fails on the code: on the 1028-byte input `cex_mem` (every byte below 256) `compress`
writes 1158 bytes, one more than the `odata_size 1028 = 1028/8 + 1028 + 1 = 1157` bytes that
`lzss_compress` allocates for its output. -/
theorem C2_output_exceeds_buffer :
    (∀ i : Nat, i < 1028 → cex_mem (i : Int) < 256) ∧
    (compress cex_mem 1028).length = 1158 ∧
    odata_size 1028 = 1157 ∧
    ¬ (compress cex_mem 1028).length ≤ 1028 + 1028 / 8 + 1 := by
  refine ⟨?_, cex_compress_length, rfl, by rw [cex_compress_length]; decide⟩
  intro i hi
  unfold cex_mem cex_byte
  rw [Int.toNat_ofNat]
  split_ifs <;> omega

/-- C3 (whole codes, exact counter): on the file written for `B`, the loop of `decompress`
starts with `cptr = c + 8` and the counter equal to the payload size, ends in the state with
counter 0, all payload bytes consumed and exactly `B` written; at the head of every iteration
the counter equals the number of payload bytes not yet consumed (it never wraps), and it is 0
only in the final state. -/
theorem C3_counter_exact (B : List Nat) (hB : B.length < 2 ^ 32)
    (hC : (compress (mem B) B.length).length < 2 ^ 32) :
    decompress_init (lzss_compress (mem B) B.length) =
      some ⟨8, (compress (mem B) B.length).length, []⟩ ∧
    decompress_loop (lzss_compress (mem B) B.length) (lzss_compress (mem B) B.length).length
      ⟨8, (compress (mem B) B.length).length, []⟩ =
      some ⟨8 + (compress (mem B) B.length).length, 0, B⟩ ∧
    ∃ L : List DState,
      decompress_trace (lzss_compress (mem B) B.length) (lzss_compress (mem B) B.length).length
        ⟨8, (compress (mem B) B.length).length, []⟩ =
        L ++ [⟨8 + (compress (mem B) B.length).length, 0, B⟩] ∧
      ∀ st ∈ L, st.csize ≠ 0 ∧ 8 ≤ st.cptr ∧
        st.csize + (st.cptr - 8) = (compress (mem B) B.length).length := by
  have h := decompress_run (mem B) B.length hB hC
  rw [bytes_mem] at h
  exact ⟨decompress_init_lzss (mem B) B.length hC, h⟩

theorem C3_counter_exact_witness :
    [7, 7, 7, 7, 7, 7, 7, 1, 2].length < 2 ^ 32 ∧
    (compress (mem [7, 7, 7, 7, 7, 7, 7, 1, 2]) 9).length < 2 ^ 32 ∧
    decompress_loop (lzss_compress (mem [7, 7, 7, 7, 7, 7, 7, 1, 2]) 9)
      (lzss_compress (mem [7, 7, 7, 7, 7, 7, 7, 1, 2]) 9).length
      ⟨8, (compress (mem [7, 7, 7, 7, 7, 7, 7, 1, 2]) 9).length, []⟩ =
      some ⟨8 + (compress (mem [7, 7, 7, 7, 7, 7, 7, 1, 2]) 9).length, 0,
        [7, 7, 7, 7, 7, 7, 7, 1, 2]⟩ :=
  ⟨by decide, by decide,
    (C3_counter_exact [7, 7, 7, 7, 7, 7, 7, 1, 2] (by decide) (by decide)).2.1⟩

/-- C4 (window bound): in every iteration of the loop of `compress`, on an input of any size,
when the length returned by `find_longest_match` is at least `MINMATCH` the iteration hands to
`write_code` the returned pair at the cursor, and the distance `d` of that pair satisfies
`1 ≤ d < 4096` and `d ≤ i`, the number of input bytes before the cursor. -/
theorem C4_window_bound (uc : Int → Nat) (n : Nat) (h32 : n < 2 ^ 32) (k : Nat)
    (hi : (compress_iter uc n k).i < n)
    (hm : MINMATCH ≤ (find_longest_match uc (eff_start (compress_iter uc n k)) n
      (compress_iter uc n k).wnd).2) :
    (compress_iter uc n (k + 1)).cptr =
      (write_code uc
        (find_longest_match uc (eff_start (compress_iter uc n k)) n (compress_iter uc n k).wnd).1
        (find_longest_match uc (eff_start (compress_iter uc n k)) n (compress_iter uc n k).wnd).2
        (compress_iter uc n k).wnd (compress_iter uc n k).cptr (compress_iter uc n k).nm).1 ∧
    (compress_iter uc n k).wnd = (compress_iter uc n k).i ∧
    1 ≤ (find_longest_match uc (eff_start (compress_iter uc n k)) n
      (compress_iter uc n k).wnd).1 ∧
    (find_longest_match uc (eff_start (compress_iter uc n k)) n
      (compress_iter uc n k).wnd).1 < 4096 ∧
    (find_longest_match uc (eff_start (compress_iter uc n k)) n
      (compress_iter uc n k).wnd).1 ≤ (compress_iter uc n k).i := by
  obtain ⟨hw, -, -, hlo, hhi, -, -⟩ := compress_iter_inv uc n h32 k
  obtain ⟨-, h2⟩ := find_longest_match_valid uc (eff_start (compress_iter uc n k)) n
    (compress_iter uc n k).wnd
  have hM : MINMATCH = 3 := rfl
  have hW : WINDOWSIZE = 4096 := rfl
  obtain ⟨hp1, hp2, -⟩ := h2 (by omega)
  refine ⟨?_, hw, hp1, ?_, ?_⟩
  · rw [compress_iter, compress_next, if_pos hi, compress_step_unfold, if_pos hm]
  · rw [hw] at hp2; omega
  · rw [hw] at hp2; omega

theorem C4_window_bound_witness :
    (compress_iter (mem [65, 65, 65, 65, 65, 65]) 6 2).i < 6 ∧
    (find_longest_match (mem [65, 65, 65, 65, 65, 65])
      (eff_start (compress_iter (mem [65, 65, 65, 65, 65, 65]) 6 2)) (6 : Nat)
      (compress_iter (mem [65, 65, 65, 65, 65, 65]) 6 2).wnd).1 < 4096 :=
  ⟨by decide, (C4_window_bound (mem [65, 65, 65, 65, 65, 65]) 6 (by decide) 2 (by decide)
    (by decide)).2.2.2.1⟩

/-- C5 (bit width): for every `n` with `1 ≤ n < 2 ^ 32` the macro `MSBi32` leaves
`floor(log2 n)`, the zero-based index of the highest set bit: `2 ^ MSBi32 n ≤ n < 2 ^ (MSBi32 n + 1)`. -/
theorem C5_MSBi32_floor_log2 (n : Nat) (h0 : 1 ≤ n) (h32 : n < 2 ^ 32) :
    MSBi32 n = Nat.log2 n ∧ 2 ^ MSBi32 n ≤ n ∧ n < 2 ^ (MSBi32 n + 1) :=
  ⟨MSBi32_eq_log2 n h0 h32, MSBi32_bounds n h0 h32⟩

theorem C5_MSBi32_floor_log2_witness :
    MSBi32 1 = 0 ∧ MSBi32 2 = 1 ∧ MSBi32 3 = 1 ∧ MSBi32 4 = 2 ∧ MSBi32 4095 = 11 ∧
    (1 ≤ 4095 ∧ 4095 < 2 ^ 32 ∧ MSBi32 4095 = Nat.log2 4095 ∧ 2 ^ MSBi32 4095 ≤ 4095 ∧
      4095 < 2 ^ (MSBi32 4095 + 1)) :=
  ⟨by decide, by decide, by decide, by decide, by decide, by decide, by decide,
    C5_MSBi32_floor_log2 4095 (by decide) (by decide)⟩

/-- C6 (returned match is a real match): with the cursor inside the buffer (`wnd < end`), when
`find_longest_match` returns `(pos, len)` with `len ≥ 2`, then `pos ≥ 1`, the run at the cursor
ends at or before the buffer end, and `uc[wnd - pos + k] = uc[wnd + k]` for every `k < len`,
also when `pos < len`. -/
theorem C6_match_valid (uc : Int → Nat) (start endp wnd : Int) (hw : wnd < endp)
    (h2 : 2 ≤ (find_longest_match uc start endp wnd).2) :
    1 ≤ (find_longest_match uc start endp wnd).1 ∧
    wnd + (find_longest_match uc start endp wnd).2 ≤ endp ∧
    ∀ k : Nat, k < (find_longest_match uc start endp wnd).2 →
      uc (wnd - (find_longest_match uc start endp wnd).1 + k) = uc (wnd + k) := by
  obtain ⟨-, -, h3⟩ := find_longest_match_spec uc start endp wnd hw
  rcases h3 with ⟨-, b⟩ | ⟨a, -, -, d, -⟩
  · omega
  · exact ⟨a, d.1, d.2⟩

theorem C6_match_valid_witness :
    find_longest_match (mem [65, 65, 65, 65, 65, 65]) (-1) 6 2 = (1, 4) ∧
    (1 ≤ (find_longest_match (mem [65, 65, 65, 65, 65, 65]) (-1) 6 2).1 ∧
     (2 : Int) + (find_longest_match (mem [65, 65, 65, 65, 65, 65]) (-1) 6 2).2 ≤ 6 ∧
     ∀ k : Nat, k < (find_longest_match (mem [65, 65, 65, 65, 65, 65]) (-1) 6 2).2 →
      mem [65, 65, 65, 65, 65, 65]
        (2 - (find_longest_match (mem [65, 65, 65, 65, 65, 65]) (-1) 6 2).1 + k) =
      mem [65, 65, 65, 65, 65, 65] (2 + k)) :=
  ⟨by decide,
    C6_match_valid (mem [65, 65, 65, 65, 65, 65]) (-1) 6 2 (by decide) (by decide)⟩

/-- C7 (longest, nearest): with the cursor inside the buffer, the length returned by
`find_longest_match` is at least 1 and bounds the common run of every scanned candidate (the
distances `d ≥ 1` with `start + 1 < wnd - d`); it is either 1 with distance 0, or at least 2
and the length of a common run at the returned distance, which is a scanned candidate, and no
nearer candidate has a common run of that length. -/
theorem C7_longest_nearest (uc : Int → Nat) (start endp wnd : Int) (hw : wnd < endp) :
    1 ≤ (find_longest_match uc start endp wnd).2 ∧
    (∀ d m : Nat, 1 ≤ d → start + 1 < wnd - d → wnd + m ≤ endp →
      (∀ j : Nat, j < m → uc (wnd - d + j) = uc (wnd + j)) →
      m ≤ (find_longest_match uc start endp wnd).2) ∧
    (((find_longest_match uc start endp wnd).2 = 1 ∧ (find_longest_match uc start endp wnd).1 = 0) ∨
     (2 ≤ (find_longest_match uc start endp wnd).2 ∧
      1 ≤ (find_longest_match uc start endp wnd).1 ∧
      start + 1 < wnd - (find_longest_match uc start endp wnd).1 ∧
      wnd + (find_longest_match uc start endp wnd).2 ≤ endp ∧
      (∀ j : Nat, j < (find_longest_match uc start endp wnd).2 →
        uc (wnd - (find_longest_match uc start endp wnd).1 + j) = uc (wnd + j)) ∧
      ∀ d : Nat, 1 ≤ d → d < (find_longest_match uc start endp wnd).1 →
        ¬ ∀ j : Nat, j < (find_longest_match uc start endp wnd).2 →
          uc (wnd - d + j) = uc (wnd + j))) := by
  obtain ⟨h1, h2, h3⟩ := find_longest_match_spec uc start endp wnd hw
  refine ⟨h1, ?_, ?_⟩
  · intro d m hd hc hb hr
    exact h2 d m hd (by unfold ncand; omega) ⟨hb, hr⟩
  · rcases h3 with ⟨a, b⟩ | ⟨a, b, c, d, e⟩
    · exact Or.inl ⟨b, a⟩
    · refine Or.inr ⟨c, a, by unfold ncand at b; omega, d.1, d.2, ?_⟩
      intro d1 hd1 hd2 hr
      exact e d1 hd1 hd2 ⟨d.1, hr⟩

theorem C7_longest_nearest_witness :
    find_longest_match (mem [0, 7, 8, 1, 7, 8, 2, 7, 8]) (-1) 9 7 = (3, 2) ∧
    ((7 : Int) < 9 ∧ 1 ≤ (find_longest_match (mem [0, 7, 8, 1, 7, 8, 2, 7, 8]) (-1) 9 7).2) :=
  ⟨by decide, by decide,
    (C7_longest_nearest (mem [0, 7, 8, 1, 7, 8, 2, 7, 8]) (-1) 9 7 (by decide)).1⟩


/-- C8, as the code has it: while the cursor index `i` is at most `WINDOWSIZE`, `compress`
calls `find_longest_match` with `start = uc - 1`, and every earlier position `j` with
`1 ≤ j < i` is a candidate (the first byte of the buffer, `j = 0`, is not scanned): if the
bytes at `j` agree with the bytes at `i` for `m ≥ 2` bytes inside the buffer, the returned
length is at least `m`. -/
theorem C8_scan_to_second_byte (uc : Int → Nat) (n k : Nat)
    (hi : (compress_iter uc n k).i < n) (hwin : (compress_iter uc n k).i ≤ WINDOWSIZE)
    (h32 : n < 2 ^ 32) :
    eff_start (compress_iter uc n k) = -1 ∧
    (compress_iter uc n k).wnd = (compress_iter uc n k).i ∧
    ∀ j m : Nat, 1 ≤ j → j < (compress_iter uc n k).i → 2 ≤ m →
      (compress_iter uc n k).i + m ≤ n →
      (∀ q : Nat, q < m → uc ((j : Int) + q) = uc (((compress_iter uc n k).i : Int) + q)) →
      m ≤ (find_longest_match uc (eff_start (compress_iter uc n k)) n
        (compress_iter uc n k).wnd).2 := by
  have hs : eff_start (compress_iter uc n k) = -1 := by
    rw [eff_start, if_neg (by omega), compress_iter_start uc n k hwin]
  have hw := (compress_iter_inv uc n h32 k).wnd_eq
  refine ⟨hs, hw, ?_⟩
  intro j m hj1 hj2 hm hb hr
  rw [hs, hw]
  obtain ⟨-, h2, -⟩ := find_longest_match_spec uc (-1) n ((compress_iter uc n k).i : Int)
    (by exact_mod_cast hi)
  apply h2 ((compress_iter uc n k).i - j) m (by omega) (by unfold ncand; omega)
  refine ⟨by exact_mod_cast hb, ?_⟩
  intro q hq
  have := hr q hq
  rw [Nat.cast_sub (by omega)]
  rw [show ((compress_iter uc n k).i : Int) - (((compress_iter uc n k).i : Int) - (j : Int)) + q =
    (j : Int) + q by omega]
  exact this

theorem C8_scan_to_second_byte_witness :
    (compress_iter (mem [9, 65, 66, 65, 66]) 5 3).i = 3 ∧
    (compress_iter (mem [9, 65, 66, 65, 66]) 5 3).i < 5 ∧
    (compress_iter (mem [9, 65, 66, 65, 66]) 5 3).i ≤ WINDOWSIZE ∧
    2 ≤ (find_longest_match (mem [9, 65, 66, 65, 66])
      (eff_start (compress_iter (mem [9, 65, 66, 65, 66]) 5 3)) (5 : Nat)
      (compress_iter (mem [9, 65, 66, 65, 66]) 5 3).wnd).2 :=
  ⟨by decide, by decide, by decide,
    (C8_scan_to_second_byte (mem [9, 65, 66, 65, 66]) 5 3 (by decide) (by decide)
      (by decide)).2.2 1 2 (by decide) (by decide) (by decide) (by decide)
      (by intro q hq; interval_cases q <;> decide)⟩

/-- C8 as stated fails: on the input `ABAB` the iteration at cursor index 2 (within
`WINDOWSIZE`) has the position `j = 0` agreeing with the cursor for 2 bytes, yet
`find_longest_match` returns length 1: the first byte of the buffer is not a candidate. -/
theorem C8_first_byte_not_scanned :
    (compress_iter (mem [65, 66, 65, 66]) 4 2).i = 2 ∧
    (compress_iter (mem [65, 66, 65, 66]) 4 2).i ≤ WINDOWSIZE ∧
    (compress_iter (mem [65, 66, 65, 66]) 4 2).wnd = 2 ∧
    eff_start (compress_iter (mem [65, 66, 65, 66]) 4 2) = -1 ∧
    (∀ q : Nat, q < 2 → mem [65, 66, 65, 66] ((0 : Int) + q) = mem [65, 66, 65, 66] ((2 : Int) + q)) ∧
    (find_longest_match (mem [65, 66, 65, 66])
      (eff_start (compress_iter (mem [65, 66, 65, 66]) 4 2)) (4 : Nat)
      (compress_iter (mem [65, 66, 65, 66]) 4 2).wnd).2 = 1 := by
  refine ⟨by decide, by decide, by decide, by decide, ?_, by decide⟩
  intro q hq
  interval_cases q <;> decide

/-- C9 (no candidate): if no scanned candidate position holds the byte at the cursor (in
particular when no position is scanned), `find_longest_match` returns distance 0 and length 1,
and the iteration of `compress` adds that length to the literal-run counter `nm` and to the
cursor and writes nothing. -/
theorem C9_no_candidate (uc : Int → Nat) (n : Nat) (s : CState)
    (h : ∀ d : Nat, 1 ≤ d → eff_start s + 1 < s.wnd - d → uc (s.wnd - d) ≠ uc s.wnd) :
    find_longest_match uc (eff_start s) n s.wnd = (0, 1) ∧
    compress_step uc n s = ⟨s.i + 1, s.nm + 1, 1, 0, s.wnd + 1, eff_start s, s.cptr⟩ := by
  have hf := find_longest_match_no_candidate uc (eff_start s) n s.wnd h
  refine ⟨hf, ?_⟩
  rw [compress_step_unfold, hf]
  rfl

theorem C9_no_candidate_witness :
    find_longest_match (mem [5, 6]) (eff_start compress_init) (2 : Nat) compress_init.wnd = (0, 1) ∧
    compress_step (mem [5, 6]) 2 compress_init = ⟨1, 1, 1, 0, 1, -1, []⟩ :=
  C9_no_candidate (mem [5, 6]) 2 compress_init (by
    intro d h1 h2
    have : eff_start compress_init = -1 := rfl
    have : compress_init.wnd = 0 := rfl
    omega)

/-- C10 (Literal Code): for a pending run of `nm ≥ 1` bytes, `write_code` resets `nm` and
appends to the output the header (`nm` itself when `nm < 32`; otherwise `0x3F`, `0x5F` or
`0x7F` followed by `nm - 31` little-endian in 1, 2 or 4 bytes, the smallest width that holds
it), then the `nm` input bytes that precede the cursor, then the Match Code, which is empty
when `len < MINMATCH`. -/
theorem C10_literal_code (uc : Int → Nat) (pos len : Nat) (wnd : Int) (c : List Nat) (nm : Nat)
    (h1 : 1 ≤ nm) (h32 : nm < 2 ^ 32) :
    (write_code uc pos len wnd c nm).2 = 0 ∧
    (len < MINMATCH → write_match pos len [] = []) ∧
    (nm < 32 → (write_code uc pos len wnd c nm).1 =
      c ++ [nm] ++ (List.range nm).map (fun k : Nat => uc (wnd - nm + k))
        ++ write_match pos len []) ∧
    (32 ≤ nm → nm - 31 ≤ 0xFF → (write_code uc pos len wnd c nm).1 =
      c ++ [0x3F, nm - 31] ++ (List.range nm).map (fun k : Nat => uc (wnd - nm + k))
        ++ write_match pos len []) ∧
    (0xFF < nm - 31 → nm - 31 ≤ 0xFFFF → (write_code uc pos len wnd c nm).1 =
      c ++ [0x5F, (nm - 31) % 256, (nm - 31) / 256]
        ++ (List.range nm).map (fun k : Nat => uc (wnd - nm + k)) ++ write_match pos len []) ∧
    (0xFFFF < nm - 31 → (write_code uc pos len wnd c nm).1 =
      c ++ [0x7F, (nm - 31) % 256, (nm - 31) / 256 % 256, (nm - 31) / 65536 % 256,
            (nm - 31) / 16777216]
        ++ (List.range nm).map (fun k : Nat => uc (wnd - nm + k)) ++ write_match pos len []) := by
  have hw := write_code_eq uc pos len wnd c nm
  have hf := write_literal_form uc wnd nm h1 h32
  rw [hw, hf]
  refine ⟨rfl, write_match_small pos len, ?_, ?_, ?_, ?_⟩
  · intro a; simp [lit_header, a]
  · intro a b; simp [lit_header, show ¬ nm < 32 by omega, b]
  · intro a b; simp [lit_header, show ¬ nm < 32 by omega, show ¬ nm - 31 ≤ 255 by omega, b]
  · intro a
    simp [lit_header, show ¬ nm < 32 by omega, show ¬ nm - 31 ≤ 255 by omega,
      show ¬ nm - 31 ≤ 65535 by omega]

theorem C10_literal_code_witness :
    (write_code (mem (List.replicate 40 7)) 0 1 31 [] 31).1 = 0x1F :: List.replicate 31 7 ∧
    (write_code (mem (List.replicate 40 7)) 0 1 32 [] 32).1 = 0x3F :: 1 :: List.replicate 32 7 ∧
    ((1 : Nat) ≤ 32 ∧ 32 < 2 ^ 32 ∧ (write_code (mem (List.replicate 40 7)) 0 1 32 [] 32).2 = 0) :=
  ⟨by decide, by decide, by decide, by decide,
    (C10_literal_code (mem (List.replicate 40 7)) 0 1 32 [] 32 (by decide) (by decide)).1⟩

/-- C11 (compact or extended Match Code): for a match with `1 ≤ d < 4096` and `3 ≤ len < 2 ^ 32`,
`pbits = floor(log2 d)` and `lbits = floor(log2 len)`, `write_code` (nothing pending) appends
exactly 2 bytes, the compact word, if and only if `pbits + lbits < 10`; otherwise it appends
the extended word followed by `len` little-endian in 1 byte if `len ≤ 0xFF`, 2 bytes if
`len ≤ 0xFFFF` and 4 bytes otherwise. -/
theorem C11_match_code_form (uc : Int → Nat) (d len : Nat) (wnd : Int) (c : List Nat)
    (hd1 : 1 ≤ d) (hd : d < 4096) (hl : 3 ≤ len) (hl32 : len < 2 ^ 32) :
    MSBi32 d = Nat.log2 d ∧ MSBi32 len = Nat.log2 len ∧
    (Nat.log2 d + Nat.log2 len < 10 ↔
      ((write_code uc d len wnd c 0).1).length = c.length + 2) ∧
    (Nat.log2 d + Nat.log2 len < 10 →
      (write_code uc d len wnd c 0).1 =
        c ++ [(0x8000 + Nat.log2 d * 2048 + len * 2 ^ (Nat.log2 d + 1) + d) / 256,
              (0x8000 + Nat.log2 d * 2048 + len * 2 ^ (Nat.log2 d + 1) + d) % 256]) ∧
    (¬ Nat.log2 d + Nat.log2 len < 10 → len ≤ 0xFF →
      (write_code uc d len wnd c 0).1 =
        c ++ [(0x8000 + 10 * 2048 + d) / 256, (0x8000 + 10 * 2048 + d) % 256, len]) ∧
    (¬ Nat.log2 d + Nat.log2 len < 10 → 0xFF < len → len ≤ 0xFFFF →
      (write_code uc d len wnd c 0).1 =
        c ++ [(0x8000 + 12 * 2048 + d) / 256, (0x8000 + 12 * 2048 + d) % 256,
              len % 256, len / 256]) ∧
    (¬ Nat.log2 d + Nat.log2 len < 10 → 0xFFFF < len →
      (write_code uc d len wnd c 0).1 =
        c ++ [(0x8000 + 14 * 2048 + d) / 256, (0x8000 + 14 * 2048 + d) % 256,
              len % 256, len / 256 % 256, len / 65536 % 256, len / 16777216]) := by
  have e1 := MSBi32_eq_log2 d hd1 (by omega)
  have e2 := MSBi32_eq_log2 len (by omega) hl32
  have hc := write_match_compact d len hd1 (by omega) hl hl32
  have hx := write_match_extended d len hd1 hd hl
  rw [e1, e2] at hc hx
  rw [write_code_no_literal]
  refine ⟨e1, e2, ?_, ?_, ?_, ?_, ?_⟩
  · constructor
    · intro h; rw [(hc h).1]; simp
    · intro h
      by_contra hn
      rw [hx hn] at h
      simp only [le8, le16, le32] at h
      split_ifs at h <;> simp at h
  · intro h; rw [(hc h).1]
  · intro h a; rw [hx h]; simp [a, le8]; omega
  · intro h a b
    rw [hx h]
    simp [show ¬ len ≤ 255 by omega, b, le16]; omega
  · intro h a
    rw [hx h]
    simp [show ¬ len ≤ 255 by omega, show ¬ len ≤ 65535 by omega, le32]; omega

theorem C11_match_code_form_witness :
    (write_code (mem []) 1 3 0 [] 0).1 = [0x80, 0x07] ∧
    (write_code (mem []) 4095 100000 0 [] 0).1 = [0xFF, 0xFF, 0xA0, 0x86, 0x01, 0x00] ∧
    ((1 : Nat) ≤ 1 ∧ 1 < 4096 ∧ 3 ≤ 3 ∧ 3 < 2 ^ 32 ∧
      (Nat.log2 1 + Nat.log2 3 < 10 ↔ ((write_code (mem []) 1 3 0 [] 0).1).length = ([] : List Nat).length + 2)) :=
  ⟨by decide, by decide, by decide, by decide, by decide, by decide,
    (C11_match_code_form (mem []) 1 3 0 [] (by decide) (by decide) (by decide) (by decide)).2.2.1⟩


/-- C12 (Match Code round trip): for `1 ≤ d ≤ 4095` and `3 ≤ len < 2 ^ 32`, the field
extraction of the match branch of `decompress`, run on the bytes that `write_code` writes for
the match `(d, len)`, returns the distance `d`, the length `len` and the position just after
these bytes, and the match branch then copies `len` bytes from distance `d`; in the compact
form the packed fields stay below bit 11 and the 4-bit field holds a value below 10. -/
theorem C12_match_code_round_trip (uc : Int → Nat) (d len : Nat) (wnd : Int)
    (pre post : List Nat) (hd1 : 1 ≤ d) (hd : d ≤ 4095) (hl : 3 ≤ len) (hl32 : len < 2 ^ 32) :
    parse_match (pre ++ ((write_code uc d len wnd [] 0).1 ++ post)) pre.length =
      some (d, len, pre.length + ((write_code uc d len wnd [] 0).1).length) ∧
    (∀ w : List Nat,
      decode_match (pre ++ ((write_code uc d len wnd [] 0).1 ++ post)) pre.length w =
        if d ≤ w.length then
          (copy_match len (w.length - d) w).map
            (fun w1 => (pre.length + ((write_code uc d len wnd [] 0).1).length, w1))
        else none) ∧
    (MSBi32 d + MSBi32 len < 10 →
      len * 2 ^ (MSBi32 d + 1) + d < 2 ^ 11 ∧ d < 2 ^ (MSBi32 d + 1) ∧ MSBi32 d < 10) := by
  have hp := parse_match_code d len hd1 (by omega) hl hl32 pre post
  rw [write_code_no_literal, List.nil_append]
  refine ⟨hp, ?_, ?_⟩
  · intro w
    rw [decode_match_parse, hp]
  · intro hc
    obtain ⟨-, h1, h2, h3⟩ := write_match_compact d len hd1 (by omega) hl hl32 hc
    exact ⟨by norm_num; exact h1, h2, by omega⟩

theorem C12_match_code_round_trip_witness :
    parse_match ([9] ++ ((write_code (mem []) 4095 100000 0 [] 0).1 ++ [7])) 1 =
      some (4095, 100000, 7) ∧
    parse_match ([9] ++ ((write_code (mem []) 1 3 0 [] 0).1 ++ [7])) [9].length =
      some (1, 3, [9].length + ((write_code (mem []) 1 3 0 [] 0).1).length) :=
  ⟨by decide,
    (C12_match_code_round_trip (mem []) 1 3 0 [9] [7] (by decide) (by decide) (by decide)
      (by decide)).1⟩

/-- C13 (discriminator): the first byte that `write_code` writes for a literal run of
`nm ≥ 1` bytes has bit 7 clear and `decompress` takes the literal branch on it; the first
byte that it writes for a match (`1 ≤ pos < 4096`, `3 ≤ len < 2 ^ 32`) is the most significant
byte of a 16-bit word with bit 15 set, has bit 7 set, and `decompress` takes the match branch
on it. -/
theorem C13_first_byte_discriminates (uc : Int → Nat) (wnd : Int) (nm pos len p l : Nat)
    (pre post w : List Nat) (cs : Nat)
    (hn1 : 1 ≤ nm) (hn32 : nm < 2 ^ 32) (hp1 : 1 ≤ pos) (hp : pos < 4096)
    (hl : 3 ≤ len) (hl32 : len < 2 ^ 32) :
    (∃ b t, (write_code uc p l wnd [] nm).1 = b :: t ∧ b &&& 0x80 = 0 ∧
      decompress_step (pre ++ ((write_code uc p l wnd [] nm).1 ++ post)) ⟨pre.length, cs, w⟩ =
        (decode_literal (pre ++ ((write_code uc p l wnd [] nm).1 ++ post)) pre.length w).map
          (fun r => ⟨r.1, (cs + 2 ^ 32 - (r.1 - pre.length) % 2 ^ 32) % 2 ^ 32, r.2⟩)) ∧
    (∃ W t, 0x8000 ≤ W ∧ W < 0x10000 ∧
      (write_code uc pos len wnd [] 0).1 = (W / 256) :: (W % 256) :: t ∧
      (W / 256) &&& 0x80 ≠ 0 ∧
      decompress_step (pre ++ ((write_code uc pos len wnd [] 0).1 ++ post)) ⟨pre.length, cs, w⟩ =
        (decode_match (pre ++ ((write_code uc pos len wnd [] 0).1 ++ post)) pre.length w).map
          (fun r => ⟨r.1, (cs + 2 ^ 32 - (r.1 - pre.length) % 2 ^ 32) % 2 ^ 32, r.2⟩)) := by
  constructor
  · obtain ⟨b, t, hbt, hb⟩ := lit_first uc wnd nm hn1 hn32
    have hw : (write_code uc p l wnd [] nm).1 = b :: (t ++ write_match p l []) := by
      rw [write_code_eq, List.nil_append, hbt]; rfl
    refine ⟨b, _, hw, bit7_clear b hb, ?_⟩
    have hr : rd8 (pre ++ ((write_code uc p l wnd [] nm).1 ++ post)) pre.length = some b := by
      rw [hw, List.cons_append, rd8_cons]
    rw [decompress_step_eq _ _ b hr]
    simp only [bit7_clear b hb, ne_eq, not_true_eq_false, if_false]
  · have hM : MINMATCH = 3 := rfl
    have key : ∃ W t, 0x8000 ≤ W ∧ W < 0x10000 ∧ write_match pos len [] = (W / 256) :: (W % 256) :: t := by
      by_cases hc : MSBi32 pos + MSBi32 len < 10
      · obtain ⟨h0, h1, h2, h3⟩ := write_match_compact pos len hp1 (by omega) (by omega) hl32 hc
        exact ⟨_, [], by omega, by omega, h0⟩
      · have h0 := write_match_extended pos len hp1 hp (by omega) hc
        refine ⟨_, _, ?_, ?_, h0⟩ <;> split_ifs <;> omega
    obtain ⟨W, t, hW1, hW2, hWt⟩ := key
    have hb := bit7_set (W / 256) (by omega) (by omega)
    have hw : (write_code uc pos len wnd [] 0).1 = (W / 256) :: (W % 256) :: t := by
      rw [write_code_no_literal, List.nil_append, hWt]
    refine ⟨W, t, hW1, hW2, hw, hb, ?_⟩
    have hr : rd8 (pre ++ ((write_code uc pos len wnd [] 0).1 ++ post)) pre.length
        = some (W / 256) := by
      rw [hw, List.cons_append, rd8_cons]
    rw [decompress_step_eq _ _ _ hr]
    simp only [hb, ne_eq, not_false_eq_true, if_true]

theorem C13_first_byte_discriminates_witness :
    (write_code (mem [5, 6, 7]) 0 1 3 [] 3).1 = [3, 5, 6, 7] ∧
    (write_code (mem [5, 6, 7]) 1 3 3 [] 0).1 = [0x80, 0x07] ∧
    ∃ W t, 0x8000 ≤ W ∧ W < 0x10000 ∧
      (write_code (mem [5, 6, 7]) 1 3 3 [] 0).1 = (W / 256) :: (W % 256) :: t ∧
      (W / 256) &&& 0x80 ≠ 0 ∧
      decompress_step ([] ++ ((write_code (mem [5, 6, 7]) 1 3 3 [] 0).1 ++ []))
          ⟨([] : List Nat).length, 2, [4]⟩ =
        (decode_match ([] ++ ((write_code (mem [5, 6, 7]) 1 3 3 [] 0).1 ++ []))
          ([] : List Nat).length [4]).map
          (fun r => ⟨r.1, (2 + 2 ^ 32 - (r.1 - ([] : List Nat).length) % 2 ^ 32) % 2 ^ 32, r.2⟩) :=
  ⟨by decide, by decide,
    (C13_first_byte_discriminates (mem [5, 6, 7]) 3 3 1 3 0 1 [] [] [4] 2 (by decide) (by decide)
      (by decide) (by decide) (by decide) (by decide)).2⟩

/-- C14 (overlapping copy): when the match branch of `decompress` has extracted the distance
`d ≥ 1` and the length `len` and at least `d` bytes are written, it appends `len` bytes to the
output and, for every `k < len`, the byte at offset `p + k` equals the byte at offset
`p + k - d` of the resulting output (`p` the number of bytes written before), a byte appended
earlier in the same copy when `k ≥ d`. -/
theorem C14_overlapping_copy (cbuf : List Nat) (cptr : Nat) (w : List Nat) (d len cptr1 : Nat)
    (hp : parse_match cbuf cptr = some (d, len, cptr1)) (hd1 : 1 ≤ d) (hd : d ≤ w.length) :
    ∃ ext : List Nat, decode_match cbuf cptr w = some (cptr1, w ++ ext) ∧ ext.length = len ∧
      ∀ k : Nat, k < len → ∃ b : Nat,
        (w ++ ext)[w.length + k]? = some b ∧ (w ++ ext)[w.length + k - d]? = some b := by
  obtain ⟨ext, he, hl, hk⟩ := copy_match_spec len (w.length - d) w (by omega)
  refine ⟨ext, ?_, hl, ?_⟩
  · rw [decode_match_parse, hp]
    simp only [if_pos hd, he, Option.map_some']
  · intro k hk1
    have h1 := hk k hk1
    have hlt : w.length + k < (w ++ ext).length := by rw [List.length_append]; omega
    refine ⟨(w ++ ext)[w.length + k], List.getElem?_eq_getElem hlt, ?_⟩
    rw [show w.length + k - d = w.length - d + k by omega, ← h1, List.getElem?_eq_getElem hlt]

theorem C14_overlapping_copy_witness :
    parse_match [0x80, 0x15] 0 = some (1, 10, 2) ∧
    decode_match [0x80, 0x15] 0 [3, 5] = some (2, [3, 5] ++ List.replicate 10 5) ∧
    ∃ ext : List Nat, decode_match [0x80, 0x15] 0 [3, 5] = some (2, [3, 5] ++ ext) ∧
      ext.length = 10 ∧ ∀ k : Nat, k < 10 → ∃ b : Nat,
        ([3, 5] ++ ext)[[3, 5].length + k]? = some b ∧
        ([3, 5] ++ ext)[[3, 5].length + k - 1]? = some b :=
  ⟨by decide, by decide,
    C14_overlapping_copy [0x80, 0x15] 0 [3, 5] 1 10 2 (by decide) (by decide) (by decide)⟩

/-- C15, as the code has it: bit 11 of an extended Match Code word is masked away only where
the width of the length is selected; it is also bit 11 of the 12-bit distance. For every
extended word with that bit clear, setting it leaves the length and the number of bytes
consumed unchanged and adds 2048 to the distance that `decompress` derives. In the output of
`write_code` for an extended-form match (`1 ≤ d < 4096`, `len ≥ 3`,
`pbits + lbits ≥ 10`) the encoder adds the flag (`pbits = 11`) exactly when `d ≥ 2048`, and
bit 11 of the word, which is bit 3 of the first byte written, is set exactly when `d ≥ 2048`. -/
theorem C15_flag_bit_is_distance_bit (b0 b1 : Nat) (rest : List Nat)
    (h0 : b0 < 256) (h1 : b1 < 256) (hclr : b0 &&& 8 = 0)
    (hext : 10 ≤ ((256 * b0 + b1) >>> 11) &&& 0xF)
    (uc : Int → Nat) (d len : Nat) (wnd : Int) (c : List Nat)
    (hd1 : 1 ≤ d) (hd : d < 4096) (hl : 3 ≤ len)
    (hx : 10 ≤ MSBi32 d + MSBi32 len) :
    parse_match ((b0 ||| 8) :: b1 :: rest) 0 =
      (parse_match (b0 :: b1 :: rest) 0).map (fun r => (r.1 + 2048, r.2.1, r.2.2)) ∧
    (MSBi32 d = 12 - 1 ↔ 2048 ≤ d) ∧
    ∃ (e0 e1 : Nat) (t : List Nat), (write_code uc d len wnd c 0).1 = c ++ e0 :: e1 :: t ∧
      e0 < 256 ∧ (e0 &&& 8 ≠ 0 ↔ 2048 ≤ d) := by
  refine ⟨parse_match_flag b0 b1 rest h0 h1 hclr hext, MSBi32_eq_11 d hd1 hd, ?_⟩
  obtain ⟨e0, e1, t, hw, hb, hf⟩ := write_match_flag d len hd1 hd hl (by omega)
  exact ⟨e0, e1, t, by rw [write_code_no_literal, hw], hb, hf⟩

theorem C15_flag_bit_is_distance_bit_witness :
    ((0xE0 : Nat) < 256 ∧ (0 : Nat) < 256 ∧ (0xE0 : Nat) &&& 8 = 0 ∧
      10 ≤ ((256 * 0xE0 + 0) >>> 11) &&& 0xF ∧ 10 ≤ MSBi32 2048 + MSBi32 1000 ∧
      (write_code (mem []) 2048 1000 0 [] 0).1 = [0xE8, 0x00, 0xE8, 0x03]) ∧
    (parse_match ((0xE0 ||| 8) :: 0 :: [0xE8, 0x03]) 0 =
        (parse_match (0xE0 :: 0 :: [0xE8, 0x03]) 0).map (fun r => (r.1 + 2048, r.2.1, r.2.2)) ∧
      (MSBi32 2048 = 12 - 1 ↔ 2048 ≤ 2048) ∧
      ∃ (e0 e1 : Nat) (t : List Nat),
        (write_code (mem []) 2048 1000 0 [] 0).1 = [] ++ e0 :: e1 :: t ∧
        e0 < 256 ∧ (e0 &&& 8 ≠ 0 ↔ 2048 ≤ 2048)) :=
  ⟨⟨by decide, by decide, by decide, by decide, by decide, by decide⟩,
    C15_flag_bit_is_distance_bit 0xE0 0 [0xE8, 0x03] (by decide) (by decide) (by decide)
      (by decide) (mem []) 2048 1000 0 [] (by decide) (by decide) (by decide) (by decide)⟩

/-- C15 as stated fails: the extended Match Code that `write_code` writes for distance 2048 and
length 1000 is `E8 00 E8 03`, with bit 11 of the word set; `decompress` derives the distance
2048 from it, and the distance 0 from the same bytes with that bit cleared (`E0 00 E8 03`). -/
theorem C15_flag_bit_changes_distance :
    (write_code (mem []) 2048 1000 0 [] 0).1 = [0xE8, 0x00, 0xE8, 0x03] ∧
    parse_match [0xE8, 0x00, 0xE8, 0x03] 0 = some (2048, 1000, 4) ∧
    parse_match [0xE0, 0x00, 0xE8, 0x03] 0 = some (0, 1000, 4) := by
  decide

/-- C16, as the code has it: on the 12 bytes `AAAAAAAAAAAA` `compress` writes the 5 bytes
`02 41 41 80 15`, the output of one call of `write_code`: a Literal Code of 3 bytes for the
first `MINMATCH - 1 = 2` input bytes, then one compact Match Code of 2 bytes with distance 1
and length 10; `decompress` returns the 12 bytes. -/
theorem C16_example_twelve_A :
    compress (mem (List.replicate 12 65)) 12 = [0x02, 65, 65, 0x80, 0x15] ∧
    compress (mem (List.replicate 12 65)) 12 =
      (write_code (mem (List.replicate 12 65)) 1 10 2 [] 2).1 ∧
    (write_code (mem (List.replicate 12 65)) 0 0 2 [] 2).1 = [0x02, 65, 65] ∧
    (write_code (mem (List.replicate 12 65)) 1 10 2 [] 0).1 = [0x80, 0x15] ∧
    MSBi32 1 + MSBi32 10 < 10 ∧
    parse_match (compress (mem (List.replicate 12 65)) 12) 3 = some (1, 10, 5) ∧
    decompress (lzss_compress (mem (List.replicate 12 65)) 12) = some (List.replicate 12 65) := by
  decide

/-- C16 as stated fails: the output of `compress` on `AAAAAAAAAAAA` is not the Literal Code of
the first two bytes followed by the Match Code of distance 1 and length 9. -/
theorem C16_length_is_not_nine :
    compress (mem (List.replicate 12 65)) 12 ≠
      (write_code (mem (List.replicate 12 65)) 1 9 2 [] 2).1 ∧
    (write_code (mem (List.replicate 12 65)) 1 9 2 [] 2).1 = [0x02, 65, 65, 0x80, 0x13] := by
  decide

/-- C17, as the code has it: a loop iteration of `compress` in which the returned length is
below `MINMATCH` advances the cursor by the returned length and adds the returned length to
the literal-run counter, writing nothing; that length is 1 or 2. -/
theorem C17_literal_step (uc : Int → Nat) (n : Nat) (s : CState)
    (h : (find_longest_match uc (eff_start s) n s.wnd).2 < MINMATCH) :
    compress_step uc n s =
      ⟨s.i + (find_longest_match uc (eff_start s) n s.wnd).2,
       s.nm + (find_longest_match uc (eff_start s) n s.wnd).2,
       (find_longest_match uc (eff_start s) n s.wnd).2,
       (find_longest_match uc (eff_start s) n s.wnd).1,
       s.wnd + (find_longest_match uc (eff_start s) n s.wnd).2, eff_start s, s.cptr⟩ ∧
    ((find_longest_match uc (eff_start s) n s.wnd).2 = 1 ∨
     (find_longest_match uc (eff_start s) n s.wnd).2 = 2) := by
  have hM : MINMATCH = 3 := rfl
  refine ⟨?_, ?_⟩
  · rw [compress_step_unfold, if_neg (by omega)]
  · have := (find_longest_match_valid uc (eff_start s) n s.wnd).1
    omega

theorem C17_literal_step_witness :
    (find_longest_match (mem [5, 6]) (eff_start compress_init) (2 : Nat) compress_init.wnd).2
      < MINMATCH ∧
    compress_step (mem [5, 6]) (2 : Nat) compress_init = ⟨1, 1, 1, 0, 1, -1, []⟩ :=
  ⟨by decide, (C17_literal_step (mem [5, 6]) 2 compress_init (by decide)).1⟩

/-- C17 as stated fails: on the input `09 41 42 41 42` the iteration at cursor index 3 finds
the match of length 2 at distance 2, below `MINMATCH`, and advances the cursor and the
literal-run counter by 2, from 3 to 5. -/
theorem C17_advance_by_two :
    (compress_iter (mem [9, 65, 66, 65, 66]) 5 3).i = 3 ∧
    (compress_iter (mem [9, 65, 66, 65, 66]) 5 3).nm = 3 ∧
    find_longest_match (mem [9, 65, 66, 65, 66])
      (eff_start (compress_iter (mem [9, 65, 66, 65, 66]) 5 3)) (5 : Nat)
      (compress_iter (mem [9, 65, 66, 65, 66]) 5 3).wnd = (2, 2) ∧
    (compress_iter (mem [9, 65, 66, 65, 66]) 5 4).i = 5 ∧
    (compress_iter (mem [9, 65, 66, 65, 66]) 5 4).nm = 5 := by
  decide

/-- C18 (termination at the end of the input): for an input of `n` bytes and a cursor index
`i < n`, `find_longest_match` returns a length between 1 and `n - i`; the loop of `compress`
ends within `n` iterations with the cursor index exactly `n`; the output is what the logged
calls of `write_code` write, and the literal counts and match lengths of these calls sum to
`n`. -/
theorem C18_loop_ends_at_n (uc : Int → Nat) (n : Nat) (h32 : n < 2 ^ 32) :
    (∀ (start : Int) (i : Nat), i < n →
      1 ≤ (find_longest_match uc start n i).2 ∧ (find_longest_match uc start n i).2 ≤ n - i) ∧
    (compress_loop uc n n compress_init).i = n ∧
    compress uc n = run_calls uc (all_write_calls uc n) [] ∧
    ((all_write_calls uc n).map call_bytes).sum = n := by
  refine ⟨?_, ?_, all_write_calls_spec uc n h32⟩
  · intro start i hi
    have h1 := (find_longest_match_valid uc start n i).1
    have h2 := find_longest_match_le uc start n i (by exact_mod_cast hi)
    exact ⟨h1, by omega⟩
  · have := compress_loop_iter uc n n 0
    rw [Nat.zero_add] at this
    rw [show compress_init = compress_iter uc n 0 from rfl, this]
    exact compress_final_i uc n h32

theorem C18_loop_ends_at_n_witness :
    (12 : Nat) < 2 ^ 32 ∧
    all_write_calls (mem (List.replicate 12 65)) 12 = [(1, 10, 2, 2)] ∧
    (compress_loop (mem (List.replicate 12 65)) 12 12 compress_init).i = 12 :=
  ⟨by decide, by decide, (C18_loop_ends_at_n (mem (List.replicate 12 65)) 12 (by decide)).2.1⟩

/-- C19 (window sliding): in the loop of `compress`, while the cursor index is at most
`WINDOWSIZE` the pointer `start` is `uc - 1`; if `p` is the cursor index of an iteration within
`WINDOWSIZE` and the next cursor index exceeds `WINDOWSIZE`, then in every later iteration the
span `wnd - start` passed to `find_longest_match` is `p + 1`, and the distances it scans are
exactly those `d` with `d + 1 ≤ p`. -/
theorem C19_window_span (uc : Int → Nat) (n : Nat) (h32 : n < 2 ^ 32) (k : Nat)
    (hp : (compress_iter uc n k).i ≤ WINDOWSIZE) :
    ((compress_iter uc n k).start = -1 ∧ eff_start (compress_iter uc n k) = -1) ∧
    (WINDOWSIZE < (compress_iter uc n (k + 1)).i → ∀ m : Nat, 1 ≤ m →
      WINDOWSIZE < (compress_iter uc n (k + m)).i ∧
      (compress_iter uc n (k + m)).wnd - eff_start (compress_iter uc n (k + m)) =
        ((compress_iter uc n k).i : Int) + 1 ∧
      ∀ d : Nat, (eff_start (compress_iter uc n (k + m)) + 1 < (compress_iter uc n (k + m)).wnd - d
        ↔ d + 1 ≤ (compress_iter uc n k).i)) := by
  have hs := compress_iter_start uc n k hp
  have he : eff_start (compress_iter uc n k) = -1 := by
    rw [eff_start, if_neg (by omega), hs]
  have hw := (compress_iter_inv uc n h32 k).wnd_eq
  refine ⟨⟨hs, he⟩, ?_⟩
  intro hnext m hm
  obtain ⟨h1, h2⟩ := span_const uc n k hnext m hm
  rw [he, hw] at h2
  refine ⟨h1, by omega, ?_⟩
  intro d
  constructor <;> intro h <;> omega

theorem C19_window_span_witness :
    (4300 : Nat) < 2 ^ 32 ∧ (compress_iter jump_mem 4300 2).i = 2 ∧
    (compress_iter jump_mem 4300 2).i ≤ WINDOWSIZE ∧
    WINDOWSIZE < (compress_iter jump_mem 4300 (2 + 1)).i ∧
    (compress_iter jump_mem 4300 (2 + 1)).wnd - eff_start (compress_iter jump_mem 4300 (2 + 1)) =
      ((compress_iter jump_mem 4300 2).i : Int) + 1 :=
  ⟨by decide, by decide, by decide, by decide!,
    ((C19_window_span jump_mem 4300 (by decide) 2 (by decide)).2 (by decide!) 1
      (le_refl _)).2.1⟩

/-- C20 fails on the code: for the initial checksum 0 and the 12-byte block
`FF FF FF FF FF FF FF FF 01 00 00 00` the exact sum is `2 ^ 33 - 1`, which is congruent to 1
modulo `0xFFFF`, and `my_ChkSum` returns 2: the carry out of bit 32 stays in the 64-bit
accumulator and is counted a second time by the fold to 16 bits. -/
theorem C20_checksum_off_by_one :
    (∀ p : Nat, chk_block p < 256) ∧
    chk_exact_sum 0 chk_block 12 = 2 ^ 33 - 1 ∧
    (2 ^ 33 - 1) % 0xFFFF = 1 ∧
    my_ChkSum 0 chk_block 12 = 2 ∧
    my_ChkSum 0 chk_block 12 < 2 ^ 16 ∧
    ¬ my_ChkSum 0 chk_block 12 % 0xFFFF = chk_exact_sum 0 chk_block 12 % 0xFFFF := by
  refine ⟨?_, by decide, by decide, by decide, by decide, by decide⟩
  intro p
  unfold chk_block
  split_ifs <;> decide

end LZSS
